import Mathlib

/-!
Verification development for the OpenMM AMOEBA/HIPPO CUDA plugin
(`plugins/amoeba/platforms/cuda/src/AmoebaCudaKernels.cpp` and
`plugins/amoeba/platforms/cuda/src/kernels/hippoComputeField.cu`).

The C++ code is shallowly embedded: pure numeric device functions become
functions over `ℝ`; exact host-side arithmetic that only needs field
operations and comparisons is embedded over `ℚ` so that concrete instances
can be evaluated; stateful host orchestration code becomes explicit state
passing over small state structures; GPU kernels whose bodies live outside
the embedded translation unit are taken as abstract parameters or are
modelled from the specification (marked in their doc comments).
-/

open Filter Topology

/-! ## Damping factor library (hippoComputeField.cu) -/

/-- Embedding of `computeDirectFieldDampingFactors` from
`hippoComputeField.cu` (lines 1-11).  Returns `(fdamp3, fdamp5, fdamp7)`. -/
noncomputable def computeDirectFieldDampingFactors (alpha r : ℝ) : ℝ × ℝ × ℝ :=
  let ar := alpha * r
  let ar2 := ar * ar
  let ar3 := ar2 * ar
  let ar4 := ar2 * ar2
  let expAR := Real.exp (-ar)
  let one : ℝ := 1
  (1 - (1 + ar + ar2 * (one / 2)) * expAR,
   1 - (1 + ar + ar2 * (one / 2) + ar3 * (one / 6)) * expAR,
   1 - (1 + ar + ar2 * (one / 2) + ar3 * (one / 6) + ar4 * (one / 30)) * expAR)

/-- Embedding of `computeMutualFieldDampingFactors` from
`hippoComputeField.cu` (lines 13-46).  Returns `(fdamp3, fdamp5)`. -/
noncomputable def computeMutualFieldDampingFactors (alphaI alphaJ r : ℝ) : ℝ × ℝ :=
  let arI := alphaI * r
  let arI2 := arI * arI
  let arI3 := arI2 * arI
  let expARI := Real.exp (-arI)
  let one : ℝ := 1
  let seven : ℝ := 7
  if alphaI = alphaJ then
    let arI4 := arI3 * arI
    let arI5 := arI4 * arI
    (1 - (1 + arI + arI2 * (one / 2) + arI3 * (seven / 48) + arI4 * (one / 48)) * expARI,
     1 - (1 + arI + arI2 * (one / 2) + arI3 * (one / 6) + arI4 * (one / 24)
            + arI5 * (one / 144)) * expARI)
  else
    let arJ := alphaJ * r
    let arJ2 := arJ * arJ
    let arJ3 := arJ2 * arJ
    let expARJ := Real.exp (-arJ)
    let aI2 := alphaI * alphaI
    let aJ2 := alphaJ * alphaJ
    let A := aJ2 / (aJ2 - aI2)
    let B := aI2 / (aI2 - aJ2)
    let A2 := A * A
    let B2 := B * B
    (1 - A2 * (1 + arI + arI2 * (one / 2)) * expARI
       - B2 * (1 + arJ + arJ2 * (one / 2)) * expARJ
       - 2 * A2 * B * (1 + arI) * expARI
       - 2 * B2 * A * (1 + arJ) * expARJ,
     1 - A2 * (1 + arI + arI2 * (one / 2) + arI3 * (one / 6)) * expARI
       - B2 * (1 + arJ + arJ2 * (one / 2) + arJ3 * (one / 6)) * expARJ
       - 2 * A2 * B * (1 + arI + arI2 * (one / 3)) * expARI
       - 2 * B2 * A * (1 + arJ + arJ2 * (one / 3)) * expARJ)

/-! Auxiliary polynomials used to analyse the equal-alpha limit of the
mutual-field damping factors.  With `t = alphaI`, `a = alphaJ` and `s = a - t`,
the general branch of each factor can be rewritten as
`1 - exp (-(a*r)) * ((p t) * E t + h t) / (a+t)^3` where
`E t = (exp ((a-t)*r) - 1 - (a-t)*r - ((a-t)*r)^2/2) / (a-t)^3` and
`p`, `h` are the polynomials below. -/

/-- Numerator polynomial multiplying the exponential remainder in the rewritten
general branch of `fdamp3`. -/
noncomputable def mutualP3 (t a r : ℝ) : ℝ :=
  a^4 * ((1 + t*r + t^2*r^2/2) * (a^2 - t^2) - 2 * t^2 * (1 + t*r))

/-- Polynomial quotient `((mutualP3) * (1 + s*r + s^2*r^2/2) + q) / s^3` for the
`fdamp3` general branch, computed by exact polynomial division. -/
noncomputable def mutualH3 (t a r : ℝ) : ℝ :=
  a^3 + a^4*r + (1/2 : ℝ)*a^5*r^2 + 3*t*a^2 + 3*t*a^3*r + (3/2 : ℝ)*t*a^4*r^2
    + (1/2 : ℝ)*t*a^5*r^3 + 3*t^2*a + 3*t^2*a^2*r + (3/2 : ℝ)*t^2*a^3*r^2
    + t^2*a^4*r^3 + (1/4 : ℝ)*t^2*a^5*r^4 + t^3 + t^3*a*r
    + (1/2 : ℝ)*t^3*a^2*r^2 + (1/4 : ℝ)*t^3*a^4*r^4

/-- Numerator polynomial multiplying the exponential remainder in the rewritten
general branch of `fdamp5`. -/
noncomputable def mutualP5 (t a r : ℝ) : ℝ :=
  a^4 * ((1 + t*r + t^2*r^2/2 + t^3*r^3/6) * (a^2 - t^2)
    - 2 * t^2 * (1 + t*r + t^2*r^2/3))

/-- Polynomial quotient for the `fdamp5` general branch. -/
noncomputable def mutualH5 (t a r : ℝ) : ℝ :=
  a^3 + a^4*r + (1/2 : ℝ)*a^5*r^2 + 3*t*a^2 + 3*t*a^3*r + (3/2 : ℝ)*t*a^4*r^2
    + (1/2 : ℝ)*t*a^5*r^3 + 3*t^2*a + 3*t^2*a^2*r + (3/2 : ℝ)*t^2*a^3*r^2
    + t^2*a^4*r^3 + (1/4 : ℝ)*t^2*a^5*r^4 + t^3 + t^3*a*r
    + (1/2 : ℝ)*t^3*a^2*r^2 + (1/6 : ℝ)*t^3*a^3*r^3 + (5/12 : ℝ)*t^3*a^4*r^4
    + (1/12 : ℝ)*t^3*a^5*r^5 + (1/12 : ℝ)*t^4*a^4*r^5

/-- The degree-3 exponential Taylor remainder quotient whose limit at `0`
is `1/6`. -/
noncomputable def expRemainderQuot (x : ℝ) : ℝ :=
  (Real.exp x - 1 - x - x^2 / 2) / x^3


/-- The general (distinct-alpha) branch of `computeMutualFieldDampingFactors`,
first component (`fdamp3`), as a standalone function of
`t = alphaI`, `a = alphaJ`, `r`. -/
noncomputable def mutualGeneral3 (t a r : ℝ) : ℝ :=
  let arI := t * r
  let arI2 := arI * arI
  let expARI := Real.exp (-arI)
  let arJ := a * r
  let arJ2 := arJ * arJ
  let expARJ := Real.exp (-arJ)
  let aI2 := t * t
  let aJ2 := a * a
  let A := aJ2 / (aJ2 - aI2)
  let B := aI2 / (aI2 - aJ2)
  let A2 := A * A
  let B2 := B * B
  1 - A2 * (1 + arI + arI2 * (1 / 2)) * expARI
    - B2 * (1 + arJ + arJ2 * (1 / 2)) * expARJ
    - 2 * A2 * B * (1 + arI) * expARI
    - 2 * B2 * A * (1 + arJ) * expARJ

/-- The general (distinct-alpha) branch of `computeMutualFieldDampingFactors`,
second component (`fdamp5`). -/
noncomputable def mutualGeneral5 (t a r : ℝ) : ℝ :=
  let arI := t * r
  let arI2 := arI * arI
  let arI3 := arI2 * arI
  let expARI := Real.exp (-arI)
  let arJ := a * r
  let arJ2 := arJ * arJ
  let arJ3 := arJ2 * arJ
  let expARJ := Real.exp (-arJ)
  let aI2 := t * t
  let aJ2 := a * a
  let A := aJ2 / (aJ2 - aI2)
  let B := aI2 / (aI2 - aJ2)
  let A2 := A * A
  let B2 := B * B
  1 - A2 * (1 + arI + arI2 * (1 / 2) + arI3 * (1 / 6)) * expARI
    - B2 * (1 + arJ + arJ2 * (1 / 2) + arJ3 * (1 / 6)) * expARJ
    - 2 * A2 * B * (1 + arI + arI2 * (1 / 3)) * expARI
    - 2 * B2 * A * (1 + arJ + arJ2 * (1 / 3)) * expARJ

/-- The degenerate (equal-alpha) branch of `computeMutualFieldDampingFactors`,
first component. -/
noncomputable def mutualDegenerate3 (t r : ℝ) : ℝ :=
  let arI := t * r
  let arI2 := arI * arI
  let arI3 := arI2 * arI
  let arI4 := arI3 * arI
  1 - (1 + arI + arI2 * (1 / 2) + arI3 * ((7:ℝ) / 48) + arI4 * (1 / 48)) *
    Real.exp (-arI)

/-- The degenerate (equal-alpha) branch of `computeMutualFieldDampingFactors`,
second component. -/
noncomputable def mutualDegenerate5 (t r : ℝ) : ℝ :=
  let arI := t * r
  let arI2 := arI * arI
  let arI3 := arI2 * arI
  let arI4 := arI3 * arI
  let arI5 := arI4 * arI
  1 - (1 + arI + arI2 * (1 / 2) + arI3 * (1 / 6) + arI4 * (1 / 24)
        + arI5 * (1 / 144)) * Real.exp (-arI)

/-- The exponential Taylor remainder appearing when the general branch is put
over the common denominator `(a-t)^3 (a+t)^3`. -/
noncomputable def expRemainderTerm (t a r : ℝ) : ℝ :=
  (Real.exp ((a-t)*r) - 1 - (a-t)*r - ((a-t)*r)^2/2) / (a-t)^3

/-! ## Fixed-point field accumulation (hippoComputeField.cu, computeField) -/

/-- Truncating conversion of a rational to an integer (C++ cast of a floating
value to `long long`: rounds toward zero). -/
def truncToInt (q : ℚ) : ℤ :=
  if 0 ≤ q then ⌊q⌋ else ⌈q⌉

/-- Embedding of the conversion performed at each `atomicAdd` in
`computeField`: `static_cast<unsigned long long>((long long) (v*0x100000000))`.
The value is scaled by `2^32`, truncated toward zero, and reinterpreted as an
unsigned 64-bit integer (i.e. reduced mod `2^64`). -/
def toFixedPoint (v : ℚ) : ℕ :=
  ((truncToInt (v * 2^32)) % (2^64 : ℤ)).toNat

/-- Embedding of the accumulation of a sequence of per-tile contributions into
one slot of `fieldBuffers` by unsigned 64-bit `atomicAdd` (wrap-around
arithmetic, no saturation). -/
def accumulateField (contributions : List ℚ) : ℕ :=
  contributions.foldl (fun acc v => (acc + toFixedPoint v) % 2^64) 0

/-! ## System multipole moments (AmoebaCudaKernels.cpp 1428-1538) -/

/-- Per-atom inputs of `computeSystemMultipoleMoments`. -/
structure MomentAtom where
  x : ℚ
  y : ℚ
  z : ℚ
  charge : ℚ
  invMass : ℚ
  labDipoleX : ℚ
  labDipoleY : ℚ
  labDipoleZ : ℚ
  inducedDipoleX : ℚ
  inducedDipoleY : ℚ
  inducedDipoleZ : ℚ
  quad0 : ℚ
  quad1 : ℚ
  quad2 : ℚ
  quad3 : ℚ
  quad4 : ℚ
deriving DecidableEq

def atomMass (a : MomentAtom) : ℚ := if 0 < a.invMass then 1 / a.invMass else 0

def totalMass (atoms : List MomentAtom) : ℚ := (atoms.map atomMass).sum

def centerOfMassX (atoms : List MomentAtom) : ℚ :=
  if 0 < totalMass atoms then
    (atoms.map (fun a => atomMass a * a.x)).sum / totalMass atoms
  else (atoms.map (fun a => atomMass a * a.x)).sum

def centerOfMassY (atoms : List MomentAtom) : ℚ :=
  if 0 < totalMass atoms then
    (atoms.map (fun a => atomMass a * a.y)).sum / totalMass atoms
  else (atoms.map (fun a => atomMass a * a.y)).sum

def centerOfMassZ (atoms : List MomentAtom) : ℚ :=
  if 0 < totalMass atoms then
    (atoms.map (fun a => atomMass a * a.z)).sum / totalMass atoms
  else (atoms.map (fun a => atomMass a * a.z)).sum

def localX (atoms : List MomentAtom) (a : MomentAtom) : ℚ := a.x - centerOfMassX atoms
def localY (atoms : List MomentAtom) (a : MomentAtom) : ℚ := a.y - centerOfMassY atoms
def localZ (atoms : List MomentAtom) (a : MomentAtom) : ℚ := a.z - centerOfMassZ atoms

def netDipoleX (a : MomentAtom) : ℚ := a.labDipoleX + a.inducedDipoleX
def netDipoleY (a : MomentAtom) : ℚ := a.labDipoleY + a.inducedDipoleY
def netDipoleZ (a : MomentAtom) : ℚ := a.labDipoleZ + a.inducedDipoleZ

/-- Embedding of `CudaCalcAmoebaMultipoleForceKernel::computeSystemMultipoleMoments`
(AmoebaCudaKernels.cpp lines 1428-1538) in exact arithmetic: accumulation of
charge, dipole and traced quadrupole moments about the center of mass,
conversion to traceless form, addition of the per-atom traceless quadrupoles,
and Debye scaling into the 13-element output. -/
def computeSystemMultipoleMoments (atoms : List MomentAtom) : List ℚ :=
  let totalCharge := (atoms.map (fun a => a.charge)).sum
  let xdpl := (atoms.map (fun a => localX atoms a * a.charge + netDipoleX a)).sum
  let ydpl := (atoms.map (fun a => localY atoms a * a.charge + netDipoleY a)).sum
  let zdpl := (atoms.map (fun a => localZ atoms a * a.charge + netDipoleZ a)).sum
  let xxqdp := (atoms.map (fun a => localX atoms a * localX atoms a * a.charge
      + 2 * localX atoms a * netDipoleX a)).sum
  let xyqdp := (atoms.map (fun a => localX atoms a * localY atoms a * a.charge
      + localX atoms a * netDipoleY a + localY atoms a * netDipoleX a)).sum
  let xzqdp := (atoms.map (fun a => localX atoms a * localZ atoms a * a.charge
      + localX atoms a * netDipoleZ a + localZ atoms a * netDipoleX a)).sum
  let yxqdp := (atoms.map (fun a => localY atoms a * localX atoms a * a.charge
      + localY atoms a * netDipoleX a + localX atoms a * netDipoleY a)).sum
  let yyqdp := (atoms.map (fun a => localY atoms a * localY atoms a * a.charge
      + 2 * localY atoms a * netDipoleY a)).sum
  let yzqdp := (atoms.map (fun a => localY atoms a * localZ atoms a * a.charge
      + localY atoms a * netDipoleZ a + localZ atoms a * netDipoleY a)).sum
  let zxqdp := (atoms.map (fun a => localZ atoms a * localX atoms a * a.charge
      + localZ atoms a * netDipoleX a + localX atoms a * netDipoleZ a)).sum
  let zyqdp := (atoms.map (fun a => localZ atoms a * localY atoms a * a.charge
      + localZ atoms a * netDipoleY a + localY atoms a * netDipoleZ a)).sum
  let zzqdp := (atoms.map (fun a => localZ atoms a * localZ atoms a * a.charge
      + 2 * localZ atoms a * netDipoleZ a)).sum
  let qave := (xxqdp + yyqdp + zzqdp) / 3
  let xxqdp2 := (3/2) * (xxqdp - qave) + (atoms.map (fun a => 3 * a.quad0)).sum
  let xyqdp2 := (3/2) * xyqdp + (atoms.map (fun a => 3 * a.quad1)).sum
  let xzqdp2 := (3/2) * xzqdp + (atoms.map (fun a => 3 * a.quad2)).sum
  let yxqdp2 := (3/2) * yxqdp + (atoms.map (fun a => 3 * a.quad1)).sum
  let yyqdp2 := (3/2) * (yyqdp - qave) + (atoms.map (fun a => 3 * a.quad3)).sum
  let yzqdp2 := (3/2) * yzqdp + (atoms.map (fun a => 3 * a.quad4)).sum
  let zxqdp2 := (3/2) * zxqdp + (atoms.map (fun a => 3 * a.quad2)).sum
  let zyqdp2 := (3/2) * zyqdp + (atoms.map (fun a => 3 * a.quad4)).sum
  let zzqdp2 := (3/2) * (zzqdp - qave)
      + (atoms.map (fun a => -3 * (a.quad0 + a.quad3))).sum
  let debye : ℚ := 480321/100000
  [totalCharge,
   10 * xdpl * debye, 10 * ydpl * debye, 10 * zdpl * debye,
   100 * xxqdp2 * debye, 100 * xyqdp2 * debye, 100 * xzqdp2 * debye,
   100 * yxqdp2 * debye, 100 * yyqdp2 * debye, 100 * yzqdp2 * debye,
   100 * zxqdp2 * debye, 100 * zyqdp2 * debye, 100 * zzqdp2 * debye]


/-! ## Parameter update (AmoebaCudaKernels.cpp 1551-1610) -/

/-- Per-multipole parameters supplied by the force object to
`copyParametersToContext` (via `getMultipoleParameters`). The quadrupole is
the full 9-component row-major matrix. -/
structure MultipoleParams where
  charge : ℚ
  dipole : List ℚ
  quadrupole : List ℚ
  axisType : ℤ
  atomZ : ℤ
  atomX : ℤ
  atomY : ℤ
  thole : ℚ
  damping : ℚ
  polarity : ℚ
deriving DecidableEq

/-- Device-side arrays of `CudaCalcAmoebaMultipoleForceKernel` touched by
`copyParametersToContext`, plus the flags controlling its checks. -/
structure MultipoleKernelState where
  numAtoms : ℕ
  paddedNumAtoms : ℕ
  hasQuadrupoles : Bool
  posqCharges : List ℚ
  dampingAndThole : List (ℚ × ℚ)
  polarizability : List ℚ
  multipoleParticles : List (ℤ × ℤ × ℤ × ℤ)
  localDipoles : List ℚ
  localQuadrupoles : List ℚ
  multipolesAreValid : Bool
deriving DecidableEq

/-- The five independent quadrupole components the kernel stores per particle:
entries 0, 1, 2, 4 and 5 of the 9-component quadrupole. -/
def storedQuadrupole (p : MultipoleParams) : List ℚ :=
  [p.quadrupole.getD 0 0, p.quadrupole.getD 1 0, p.quadrupole.getD 2 0,
   p.quadrupole.getD 4 0, p.quadrupole.getD 5 0]

/-- Embedding of
`CudaCalcAmoebaMultipoleForceKernel::copyParametersToContext`
(AmoebaCudaKernels.cpp lines 1551-1610).  A thrown `OpenMMException` is
modelled as `(unchanged state, some message)`; on success the device arrays
are re-uploaded, padded to `paddedNumAtoms`, and the cached multipoles are
invalidated. -/
def copyParametersToContext (force : List MultipoleParams)
    (st : MultipoleKernelState) : MultipoleKernelState × Option String :=
  if force.length ≠ st.numAtoms then
    (st, some ("updateParametersInContext: The number of multipoles has changed"))
  else
    let dampingAndTholeVec := force.map (fun p => (p.damping, p.thole))
    let polarizabilityVec := force.map (fun p => p.polarity)
    let multipoleParticlesVec :=
      force.map (fun p => (p.atomX, p.atomY, p.atomZ, p.axisType))
    let localDipolesVec := force.flatMap (fun p =>
      [p.dipole.getD 0 0, p.dipole.getD 1 0, p.dipole.getD 2 0])
    let localQuadrupolesVec := force.flatMap storedQuadrupole
    if st.hasQuadrupoles = false ∧
        localQuadrupolesVec.any (fun q => decide (q ≠ 0)) then
      (st, some ("updateParametersInContext: Cannot set a non-zero quadrupole moment, because quadrupoles were excluded from the kernel"))
    else
      let pad := st.paddedNumAtoms - force.length
      ({ st with
          posqCharges := force.map (fun p => p.charge)
            ++ st.posqCharges.drop force.length,
          dampingAndThole := dampingAndTholeVec ++ List.replicate pad (0, 0),
          polarizability := polarizabilityVec ++ List.replicate pad 0,
          multipoleParticles := multipoleParticlesVec
            ++ List.replicate pad (0, 0, 0, 0),
          localDipoles := localDipolesVec ++ List.replicate (3 * pad) 0,
          localQuadrupoles := localQuadrupolesVec ++ List.replicate (5 * pad) 0,
          multipolesAreValid := false },
       none)

/-- A quadrupole is well formed when it is a symmetric, traceless 3x3 matrix
with 9 entries (the invariant of the force data model). -/
def quadrupoleWellFormed (p : MultipoleParams) : Prop :=
  p.quadrupole.length = 9 ∧
  p.quadrupole.getD 3 0 = p.quadrupole.getD 1 0 ∧
  p.quadrupole.getD 6 0 = p.quadrupole.getD 2 0 ∧
  p.quadrupole.getD 7 0 = p.quadrupole.getD 5 0 ∧
  p.quadrupole.getD 0 0 + p.quadrupole.getD 4 0 + p.quadrupole.getD 8 0 = 0


/-! ## Cached multipole accessors (AmoebaCudaKernels.cpp 1278-1549) -/

/-- A particle position (one row of `posq`, coordinates only). -/
abbrev ParticlePos : Type := ℚ × ℚ × ℚ

/-- The cached-multipole state of the kernel: current positions, the
positions recorded at the end of the last force evaluation, the validity
flag, and the cached derived data (induced dipoles, lab-frame dipoles,
system moments, ...), abstracted as a value of type `χ`. -/
structure CachedMultipoleState (χ : Type) where
  posq : List ParticlePos
  lastPositions : List ParticlePos
  multipolesAreValid : Bool
  cache : χ
deriving DecidableEq

/-- Embedding of the tail of
`CudaCalcAmoebaMultipoleForceKernel::execute` (AmoebaCudaKernels.cpp lines
1133-1139) as far as the cache is concerned: a force evaluation recomputes the
cached arrays from the current positions (`compute`), records the positions
in `lastPositions`, and sets `multipolesAreValid`. -/
def executeRecordsCache {χ : Type} (compute : List ParticlePos → χ)
    (s : CachedMultipoleState χ) : CachedMultipoleState χ :=
  { s with cache := compute s.posq, lastPositions := s.posq,
           multipolesAreValid := true }

/-- The scan of `ensureMultipolesValid` (lines 1278-1301): true when some
particle position differs in some coordinate from the recorded positions. -/
def positionsChanged {χ : Type} (s : CachedMultipoleState χ) : Bool :=
  (s.posq.zip s.lastPositions).any (fun pq =>
    decide (pq.1.1 ≠ pq.2.1) || decide (pq.1.2.1 ≠ pq.2.2.1)
      || decide (pq.1.2.2 ≠ pq.2.2.2))

/-- Embedding of `CudaCalcAmoebaMultipoleForceKernel::ensureMultipolesValid`
(lines 1278-1304), also returning whether a full force evaluation was
triggered. -/
def ensureMultipolesValid {χ : Type} (compute : List ParticlePos → χ)
    (s : CachedMultipoleState χ) : CachedMultipoleState χ × Bool :=
  let valid := s.multipolesAreValid && !positionsChanged s
  if valid then (s, false) else (executeRecordsCache compute s, true)

/-- Generic embedding of the cached-state accessors (`getInducedDipoles`,
`getLabFramePermanentDipoles`, `getTotalDipoles`, `getSystemMultipoleMoments`,
`getElectrostaticPotential`, lines 1306-1549): each first calls
`ensureMultipolesValid` and then reads a view of the cached arrays. -/
def cachedAccessor {χ V : Type} (compute : List ParticlePos → χ)
    (view : χ → V) (s : CachedMultipoleState χ) : V :=
  view (ensureMultipolesValid compute s).1.cache

/-- The cache invariant maintained by `execute`: whenever the validity flag is
set, the cached arrays are those computed from `lastPositions`, and the
recorded positions cover all particles. -/
def cacheInvariant {χ : Type} (compute : List ParticlePos → χ)
    (s : CachedMultipoleState χ) : Prop :=
  s.posq.length = s.lastPositions.length ∧
  (s.multipolesAreValid = true → s.cache = compute s.lastPositions)


/-! ## Mutual/DIIS induced-dipole solver (AmoebaCudaKernels.cpp 996-1001, 1187-1257) -/

/-- The device kernels driven by the Mutual/DIIS induced-dipole solver.  Their
bodies live in separate `.cu` translation units, so they are abstract state
transformers here; `errors` is the downloaded `inducedDipoleErrors` buffer
(per-block partial sums of squared dipole errors for the two polarization
channels) produced by `recordDIISDipolesKernel`. -/
structure DIISKernels (S : Type) where
  computeInducedField : S → S
  record : S → ℕ → S
  errors : S → List (ℝ × ℝ)
  update : S → ℕ → S

/-- The convergence test of `iterateDipolesByDIIS` (AmoebaCudaKernels.cpp line
1238): `48.033324*sqrt(max(total1, total2)/numAtoms) < inducedEpsilon`. -/
noncomputable def diisConverged (numAtoms : ℕ) (inducedEpsilon : ℝ)
    (errs : List (ℝ × ℝ)) : Bool :=
  if 48.033324 * Real.sqrt
      (max ((errs.map Prod.fst).sum) ((errs.map Prod.snd).sum) / numAtoms)
      < inducedEpsilon then true else false

/-- Embedding of `CudaCalcAmoebaMultipoleForceKernel::iterateDipolesByDIIS`
(lines 1187-1257, `gkKernel == NULL`): record the dipoles and errors, build
and solve the DIIS matrix, test convergence; when the test passes, return
`true` without touching the dipoles, otherwise compute the next dipoles. -/
noncomputable def iterateDipolesByDIIS {S : Type} (k : DIISKernels S)
    (numAtoms : ℕ) (inducedEpsilon : ℝ) (s : S) (iteration : ℕ) : Bool × S :=
  let s1 := k.record s iteration
  if diisConverged numAtoms inducedEpsilon (k.errors s1) then (true, s1)
  else (false, k.update s1 iteration)

/-- The induced-dipole iteration loop of
`CudaCalcAmoebaMultipoleForceKernel::execute` (lines 996-1001 and 1109-1114),
with explicit iteration index and remaining fuel. -/
noncomputable def diisLoopAux {S : Type} (k : DIISKernels S) (numAtoms : ℕ)
    (inducedEpsilon : ℝ) : ℕ → ℕ → S → S
  | _, 0, s => s
  | i, fuel+1, s =>
      let p := iterateDipolesByDIIS k numAtoms inducedEpsilon
        (k.computeInducedField s) i
      if p.1 then p.2 else diisLoopAux k numAtoms inducedEpsilon (i+1) fuel p.2

/-- The number of loop iterations actually executed. -/
noncomputable def diisCountAux {S : Type} (k : DIISKernels S) (numAtoms : ℕ)
    (inducedEpsilon : ℝ) : ℕ → ℕ → S → ℕ
  | _, 0, _ => 0
  | i, fuel+1, s =>
      let p := iterateDipolesByDIIS k numAtoms inducedEpsilon
        (k.computeInducedField s) i
      if p.1 then 1 else 1 + diisCountAux k numAtoms inducedEpsilon (i+1) fuel p.2

/-- The solver state after `j` executed iterations starting at index `i`. -/
noncomputable def diisTrajAux {S : Type} (k : DIISKernels S) (numAtoms : ℕ)
    (inducedEpsilon : ℝ) (i : ℕ) (s : S) : ℕ → S
  | 0 => s
  | j+1 =>
      (iterateDipolesByDIIS k numAtoms inducedEpsilon
        (k.computeInducedField (diisTrajAux k numAtoms inducedEpsilon i s j))
        (i+j)).2

/-- Whether the convergence test passes during executed iteration `j`
(counting from the state `s` at index `i`). -/
noncomputable def diisPassAux {S : Type} (k : DIISKernels S) (numAtoms : ℕ)
    (inducedEpsilon : ℝ) (i : ℕ) (s : S) (j : ℕ) : Bool :=
  (iterateDipolesByDIIS k numAtoms inducedEpsilon
    (k.computeInducedField (diisTrajAux k numAtoms inducedEpsilon i s j))
    (i+j)).1

/-- The Mutual/DIIS solver invoked by `execute`: at most
`maxInducedIterations` iterations starting at index 0. -/
noncomputable def diisSolve {S : Type} (k : DIISKernels S) (numAtoms : ℕ)
    (inducedEpsilon : ℝ) (maxInducedIterations : ℕ) (s : S) : S :=
  diisLoopAux k numAtoms inducedEpsilon 0 maxInducedIterations s

/-- Number of iterations performed by `diisSolve`. -/
noncomputable def diisIterCount {S : Type} (k : DIISKernels S) (numAtoms : ℕ)
    (inducedEpsilon : ℝ) (maxInducedIterations : ℕ) (s : S) : ℕ :=
  diisCountAux k numAtoms inducedEpsilon 0 maxInducedIterations s

/-- Concrete kernel instance used by the C1 witness. -/
def diisWitnessKernels : DIISKernels ℕ where
  computeInducedField := id
  record := fun s _ => s
  errors := fun _ => []
  update := fun s _ => s + 1


/-! ## Extrapolated polarization (AmoebaCudaKernels.cpp 1259-1276, 338-347) -/

/-- State of the extrapolated-polarization solver: current induced dipoles,
the last computed induced field, the recorded per-order dipoles
(`extrapolatedDipole`), and an instrumentation counter of induced-field
evaluations.  Dipole data for all atoms is abstracted into one value of a
module `α` over `ℝ`. -/
structure ExtrapolatedState (α : Type) where
  dipole : α
  field : α
  extrapolated : List α
  fieldEvals : ℕ

/-- Embedding of `computeInducedField` as used by `computeExtrapolatedDipoles`
(AmoebaCudaKernels.cpp lines 1142-1185): evaluates the induced-field operator
`T` (real-space plus, with PME, reciprocal-space) on the current dipoles. -/
def computeInducedFieldM {α : Type} (T : α → α) (s : ExtrapolatedState α) :
    ExtrapolatedState α :=
  { s with field := T s.dipole, fieldEvals := s.fieldEvals + 1 }

/-- Modelled from the spec: the `initExtrapolatedKernel`
(`initExtrapolatedDipoles`, body in a separate `.cu` unit) stores the current
direct dipoles as the order-0 term of `extrapolatedDipole`. -/
def initExtrapolatedM {α : Type} (s : ExtrapolatedState α) :
    ExtrapolatedState α :=
  { s with extrapolated := [s.dipole] }

/-- Modelled from the spec: the `iterateExtrapolatedKernel`
(`iterateExtrapolatedDipoles`, body in a separate `.cu` unit) applies the
polarizability to the freshly computed induced field, making
`mu_(n+1) = alpha.Tau mu_(n)` the new dipole, and records it as the
next-order term. -/
def iterateExtrapolatedM {α : Type} (applyPolar : α → α)
    (s : ExtrapolatedState α) : ExtrapolatedState α :=
  { s with dipole := applyPolar s.field,
           extrapolated := s.extrapolated ++ [applyPolar s.field] }

/-- The summed-suffix extrapolation weights `_extPartCoefficients`: entry `i`
is the sum of the externally supplied extrapolation coefficients from index
`i` through the last index (AmoebaCudaKernels.cpp lines 338-347,
`EXTRAPOLATION_COEFFICIENTS_SUM`). -/
def extPartCoefficients (coeffs : List ℝ) (i : ℕ) : ℝ :=
  ∑ j ∈ Finset.Ico i coeffs.length, coeffs.getD j 0

/-- Modelled from the spec: the `computeExtrapolatedKernel`
(`computeExtrapolatedDipoles` device kernel, body in a separate `.cu` unit)
forms the total dipole as the linear combination of the recorded per-order
dipoles with the summed-suffix weights. -/
def computeExtrapolatedM {α : Type} [AddCommMonoid α] [Module ℝ α]
    (coeffs : List ℝ) (s : ExtrapolatedState α) : ExtrapolatedState α :=
  { s with dipole := ∑ i ∈ Finset.range s.extrapolated.length,
      extPartCoefficients coeffs i • s.extrapolated.getD i 0 }

/-- The order-recursion loop of
`CudaCalcAmoebaMultipoleForceKernel::computeExtrapolatedDipoles`
(lines 1266-1270): each pass evaluates the induced field once and applies
`alpha.Tau` once, recording the new order. -/
def extrapLoop {α : Type} (T applyPolar : α → α) :
    ℕ → ExtrapolatedState α → ExtrapolatedState α
  | 0, s => s
  | n+1, s =>
      extrapLoop T applyPolar n
        (iterateExtrapolatedM applyPolar (computeInducedFieldM T s))

/-- Embedding of
`CudaCalcAmoebaMultipoleForceKernel::computeExtrapolatedDipoles`
(lines 1259-1276): store the direct dipoles as order 0, apply the operator
`maxOrder - 1` further times recording each order, form the weighted total,
and evaluate the induced field of the total once (used later by the force
kernels). -/
def computeExtrapolatedDipoles {α : Type} [AddCommMonoid α] [Module ℝ α]
    (T applyPolar : α → α) (coeffs : List ℝ) (maxOrder : ℕ)
    (s : ExtrapolatedState α) : ExtrapolatedState α :=
  computeInducedFieldM T
    (computeExtrapolatedM coeffs
      (extrapLoop T applyPolar (maxOrder - 1) (initExtrapolatedM s)))


/-! ## Force-evaluation step ordering (AmoebaCudaKernels.cpp 972-1139, 2526-2758) -/

/-- Polarization solver variants (AmoebaMultipoleForce::PolarizationType). -/
inductive PolarizationKind
  | direct
  | mutual
  | extrapolated
deriving DecidableEq

/-- Named steps of a force evaluation, at the granularity of the kernel
launches in `CudaCalcAmoebaMultipoleForceKernel::execute` and
`CudaCalcHippoNonbondedForceKernel::execute`. -/
inductive ExecStep
  | computeMoments
  | gkBornRadii
  | computeFixedField
  | fixedFieldExceptions
  | recordInducedDipoles
  | pmeTransformMultipoles
  | pmeSpreadFixedMultipoles
  | forwardFFT
  | convolution
  | inverseFFT
  | pmeFixedPotential
  | pmeTransformPotential
  | pmeFixedForce
  | pmeSpreadInducedDipoles
  | pmeInducedPotential
  | extrapolatedDipoles
  | inducedIteration
  | electrostatics
  | pmeInducedForce
  | pmeSelfEnergy
  | gkFinishComputation
  | addExtrapolatedGradient
  | mapTorque
  | recordLastPositions
  | dispersionPme
  | polarizationEnergy
  | computeExceptions
  | nonbondedInteractions
deriving DecidableEq

/-- Modelled from the spec: which steps accumulate into the torque buffer
(their kernels take the `torque` array and add contributions to it; the
bodies live in separate `.cu` units).  Direct-space electrostatics, the PME
reciprocal fixed-multipole and induced-dipole force passes, the HIPPO
self-energy and exception kernels, the tiled HIPPO nonbonded interactions and
the generalized-Kirkwood finalization accumulate torque; nothing else does. -/
def accumulatesTorque : ExecStep → Bool
  | .electrostatics => true
  | .pmeFixedForce => true
  | .pmeInducedForce => true
  | .pmeSelfEnergy => true
  | .computeExceptions => true
  | .nonbondedInteractions => true
  | .gkFinishComputation => true
  | _ => false

/-- Kernel-launch trace of `CudaCalcAmoebaMultipoleForceKernel::execute`
(AmoebaCudaKernels.cpp lines 972-1139), parametrized by whether PME is in
use, whether a generalized-Kirkwood kernel is attached, the polarization
type, and the number `n` of executed Mutual/DIIS loop iterations. -/
def amoebaExecuteTrace (usePME hasGK : Bool) (pol : PolarizationKind)
    (n : ℕ) : List ExecStep :=
  [.computeMoments]
  ++ (if usePME then
        [.pmeTransformMultipoles, .pmeSpreadFixedMultipoles, .forwardFFT,
         .convolution, .inverseFFT, .pmeFixedPotential, .pmeTransformPotential,
         .pmeFixedForce, .computeFixedField, .recordInducedDipoles,
         .pmeSpreadInducedDipoles, .forwardFFT, .convolution, .inverseFFT,
         .pmeInducedPotential]
        ++ (if pol = .extrapolated then [.extrapolatedDipoles] else [])
        ++ List.replicate n .inducedIteration
        ++ [.electrostatics, .pmeTransformPotential, .pmeInducedForce]
      else
        (if hasGK then [.gkBornRadii] else [])
        ++ [.computeFixedField, .recordInducedDipoles]
        ++ (if pol = .extrapolated then [.extrapolatedDipoles] else [])
        ++ List.replicate n .inducedIteration
        ++ [.electrostatics]
        ++ (if hasGK then [.gkFinishComputation] else []))
  ++ (if pol = .extrapolated then [.addExtrapolatedGradient] else [])
  ++ [.mapTorque, .recordLastPositions]

/-- Kernel-launch trace of `CudaCalcHippoNonbondedForceKernel::execute`
(lines 2526-2758).  The tiled direct-space nonbonded interactions are
executed by the nonbonded utilities during the same force computation and
are listed first; the final `mapTorque` entry is modelled from the spec:
`TorquePostComputation::computeForceAndEnergy` (lines 1906-1916, registered
with `addPostComputation` at line 2427) calls `addTorquesToForces` after
every force computation of the step has finished. -/
def hippoExecuteTrace (usePME includeEnergy hasExceptions : Bool) :
    List ExecStep :=
  [.nonbondedInteractions, .computeMoments]
  ++ (if usePME then
        [.pmeTransformMultipoles, .pmeSpreadFixedMultipoles, .forwardFFT,
         .convolution, .inverseFFT, .pmeFixedPotential, .pmeTransformPotential,
         .pmeFixedForce, .dispersionPme]
      else [])
  ++ [.computeFixedField]
  ++ (if hasExceptions then [.fixedFieldExceptions] else [])
  ++ [.extrapolatedDipoles]
  ++ (if includeEnergy then [.polarizationEnergy] else [])
  ++ (if usePME then [.pmeTransformPotential, .pmeInducedForce, .pmeSelfEnergy]
      else [])
  ++ (if hasExceptions then [.computeExceptions] else [])
  ++ [.recordLastPositions, .mapTorque]


/-! ## PME B-spline moduli initialization (AmoebaCudaKernels.cpp 748-821, 2205-2298) -/

/-- PME interpolation order (`PmeOrder` = `AMOEBA_PME_ORDER` = 5). -/
def pmeOrder : ℕ := 5

/-- One outer pass (index `i`) of the Cox-de Boor recursion building the
order-5 B-spline values at offset `x` (AmoebaCudaKernels.cpp lines 754-760). -/
noncomputable def bsplineDataPass (x : ℝ) (i : ℕ) (d : List ℝ) : List ℝ :=
  let denom : ℝ := 1 / i
  let d1 := d.set i (x * d.getD (i-1) 0 * denom)
  let d2 := (List.range (i-1)).foldl (fun cur j0 =>
    let j := j0 + 1
    cur.set (i-j) (((x + j) * cur.getD (i-j-1) 0
      + (((i:ℝ) - j + 1) - x) * cur.getD (i-j) 0) * denom)) d1
  d2.set 0 ((1 - x) * d2.getD 0 0 * denom)

/-- The order-5 B-spline coefficients at `x = 0` (lines 750-760). -/
noncomputable def bsplineData : List ℝ :=
  let x : ℝ := 0
  (List.range (pmeOrder - 2)).foldl (fun d i0 => bsplineDataPass x (i0 + 2) d)
    [1 - x, x, 0, 0, 0]

/-- `bsplines_data`: the spline shifted into a 1-based array of length
`maxSize+1` (lines 761-764); entries outside `[2, pmeOrder+1]` are zero. -/
noncomputable def bsplinesData (j : ℕ) : ℝ :=
  if 2 ≤ j ∧ j ≤ pmeOrder + 1 then bsplineData.getD (j - 2) 0 else 0

/-- Squared magnitude of the DFT of the spline at frequency `i`
(lines 769-781). -/
noncomputable def rawModulus (ndata i : ℕ) : ℝ :=
  let factor := 2 * Real.pi / ndata
  (∑ j ∈ Finset.range ndata, bsplinesData (j+1) * Real.cos (factor * i * j))^2
    + (∑ j ∈ Finset.range ndata, bsplinesData (j+1) * Real.sin (factor * i * j))^2

/-- The in-place floor-correction loop for near-zero moduli
(lines 783-792, `eps = 1e-7`). -/
noncomputable def fixModuli (l : List ℝ) : List ℝ :=
  let eps : ℝ := 1e-7
  let n := l.length
  let l1 := if l.getD 0 0 < eps then l.set 0 (0.9 * l.getD 1 0) else l
  let l2 := (List.range (n - 2)).foldl (fun cur i0 =>
    let i := i0 + 1
    if cur.getD i 0 < eps
    then cur.set i (0.9 * (cur.getD (i-1) 0 + cur.getD (i+1) 0))
    else cur) l1
  if l2.getD (n-1) 0 < eps then l2.set (n-1) (0.9 * l2.getD (n-2) 0) else l2

/-- The zeta correction factor for 0-based index `i` (lines 794-819): `k` is
the aliased frequency; for `k = 0` the factor is 1, otherwise `sum2/sum1`
with both correction series truncated at exactly `jcut = 50` terms on each
side. -/
noncomputable def zetaFactor (ndata i : ℕ) : ℝ :=
  let jcut : ℕ := 50
  let k : ℤ := if (i + 1 : ℕ) > ndata / 2 then (i : ℤ) - ndata else (i : ℤ)
  if k = 0 then 1
  else
    let factor := Real.pi * k / ndata
    let sum1 := 1 + (∑ j ∈ Finset.range jcut,
        (factor / (factor + Real.pi * (j+1)))^pmeOrder)
      + (∑ j ∈ Finset.range jcut,
        (factor / (factor - Real.pi * (j+1)))^pmeOrder)
    let sum2 := 1 + (∑ j ∈ Finset.range jcut,
        (factor / (factor + Real.pi * (j+1)))^(2*pmeOrder))
      + (∑ j ∈ Finset.range jcut,
        (factor / (factor - Real.pi * (j+1)))^(2*pmeOrder))
    sum2 / sum1

/-- The final in-place loop multiplying each modulus by `zeta^2`
(lines 797-821). -/
noncomputable def applyZeta (ndata : ℕ) (l : List ℝ) : List ℝ :=
  (List.range ndata).foldl
    (fun cur i => cur.set i (cur.getD i 0 * zetaFactor ndata i ^ 2)) l

/-- The complete B-spline moduli initialization for one grid axis of size
`ndata` (lines 748-821): raw DFT moduli, floor correction, zeta correction. -/
noncomputable def bsplineModuli (ndata : ℕ) : List ℝ :=
  applyZeta ndata (fixModuli ((List.range ndata).map (rawModulus ndata)))

/-- The floor-correction recurrence as the claim states it: index 0 below
`eps` becomes `0.9*moduli[1]`, an interior index below `eps` becomes
`0.9*(moduli[i-1]+moduli[i+1])` (the left neighbour already corrected, the
right neighbour still raw, because the correction runs in place in increasing
index order), and the last index below `eps` becomes `0.9*moduli[ndata-2]`. -/
noncomputable def fixedModulusSpec (ndata : ℕ) (raw : ℕ → ℝ) : ℕ → ℝ
  | 0 => if raw 0 < 1e-7 then 0.9 * raw 1 else raw 0
  | i+1 =>
      if i + 1 = ndata - 1 then
        (if raw (i+1) < 1e-7 then 0.9 * fixedModulusSpec ndata raw i
         else raw (i+1))
      else
        (if raw (i+1) < 1e-7 then
          0.9 * (fixedModulusSpec ndata raw i + raw (i+2))
         else raw (i+1))

/-- Partial zeta-application fold (first `m` indices). -/
noncomputable def zetaFoldAux (ndata : ℕ) (l : List ℝ) (m : ℕ) : List ℝ :=
  (List.range m).foldl
    (fun cur i => cur.set i (cur.getD i 0 * zetaFactor ndata i ^ 2)) l

/-- Partial floor-correction fold (interior indices `1..m`), started from the
list with index 0 already corrected. -/
noncomputable def fixFoldAux (l1 : List ℝ) (m : ℕ) : List ℝ :=
  (List.range m).foldl (fun cur i0 =>
    let i := i0 + 1
    if cur.getD i 0 < 1e-7
    then cur.set i (0.9 * (cur.getD (i-1) 0 + cur.getD (i+1) 0))
    else cur) l1

/-- The list with index 0 floor-corrected (first statement of the fix). -/
noncomputable def fixHead (l : List ℝ) : List ℝ :=
  if l.getD 0 0 < 1e-7 then l.set 0 (0.9 * l.getD 1 0) else l

/-! ## Theorems -/

/-- C4: `computeDirectFieldDampingFactors` returns exactly the
truncated-exponential screening factors
`fdamp3 = 1 - (1 + x + x^2/2) e^(-x)`,
`fdamp5 = 1 - (1 + x + x^2/2 + x^3/6) e^(-x)` and
`fdamp7 = 1 - (1 + x + x^2/2 + x^3/6 + x^4/30) e^(-x)` with `x = alpha*r`,
for every `alpha` and `r`; one additional Taylor term per increasing power of
`r`, with the `x^4` coefficient equal to `1/30`. -/
theorem directFieldDampingFactors_eq_truncatedExponential (alpha r : ℝ) :
    computeDirectFieldDampingFactors alpha r =
      (1 - (1 + alpha*r + (alpha*r)^2/2) * Real.exp (-(alpha*r)),
       1 - (1 + alpha*r + (alpha*r)^2/2 + (alpha*r)^3/6) * Real.exp (-(alpha*r)),
       1 - (1 + alpha*r + (alpha*r)^2/2 + (alpha*r)^3/6 + (alpha*r)^4/30) *
            Real.exp (-(alpha*r))) := by
  unfold computeDirectFieldDampingFactors
  refine Prod.ext ?_ (Prod.ext ?_ ?_) <;> simp only <;> ring

/-- Each unsigned 64-bit `atomicAdd` step wraps modulo `2^64`, so folding the
contributions equals the integer sum reduced modulo `2^64`. -/
theorem accumulateField_eq_sum_mod (l : List ℚ) :
    accumulateField l = (l.map toFixedPoint).sum % 2^64 := by
  suffices h : ∀ (acc : ℕ), acc < 2^64 →
      l.foldl (fun acc v => (acc + toFixedPoint v) % 2^64) acc
        = (acc + (l.map toFixedPoint).sum) % 2^64 by
    simpa using h 0 (by norm_num)
  induction l with
  | nil => intro acc hacc; simpa using (Nat.mod_eq_of_lt hacc).symm
  | cons x xs ih =>
      intro acc hacc
      simp only [List.foldl_cons, List.map_cons, List.sum_cons]
      rw [ih _ (Nat.mod_lt _ (by norm_num))]
      rw [Nat.mod_add_mod]
      ring_nf

/-- C6: every field contribution is accumulated as the truncating fixed-point
integer `(long long)(v * 2^32)` added into the buffer with wrap-around
(mod `2^64`) integer addition; the resulting buffer content is the integer sum
of the converted contributions modulo `2^64`, hence independent of the order in
which contributions from different tiles arrive. -/
theorem fixedPointAccumulation_deterministic :
    (∀ l : List ℚ, accumulateField l = (l.map toFixedPoint).sum % 2^64) ∧
    (∀ l l' : List ℚ, l.Perm l' → accumulateField l = accumulateField l') := by
  refine ⟨accumulateField_eq_sum_mod, ?_⟩
  intro l l' hperm
  rw [accumulateField_eq_sum_mod, accumulateField_eq_sum_mod]
  exact congrArg (· % 2^64) (List.Perm.sum_eq (hperm.map toFixedPoint))

/-- Witness for C6 at concrete inputs: two orderings of the contribution list
`[5/2, -7/3, 1/8]` accumulate to the same buffer value. -/
theorem fixedPointAccumulation_deterministic_witness :
    accumulateField [5/2, -7/3, 1/8] = accumulateField [-7/3, 5/2, 1/8] :=
  fixedPointAccumulation_deterministic.2 [5/2, -7/3, 1/8] [-7/3, 5/2, 1/8]
    (List.Perm.swap (-7/3) (5/2) [1/8])

/-- The degree-3 Taylor remainder quotient of the exponential tends to `1/6`
at `0`. -/
theorem expRemainderQuot_tendsto :
    Tendsto expRemainderQuot (nhdsWithin 0 ({0}ᶜ : Set ℝ)) (nhds (1/6)) := by
  rw [← tendsto_sub_nhds_zero_iff]
  apply squeeze_zero_norm' (a := fun x : ℝ => |x| * (5/96 + 1/6))
  · have hmem : ∀ᶠ x : ℝ in nhdsWithin 0 ({0}ᶜ : Set ℝ), x ∈ ({0}ᶜ : Set ℝ) :=
      eventually_mem_nhdsWithin
    have hball : ∀ᶠ x : ℝ in nhdsWithin 0 ({0}ᶜ : Set ℝ), |x| ≤ 1 := by
      apply eventually_nhdsWithin_of_eventually_nhds
      have : ∀ᶠ x : ℝ in nhds 0, dist x 0 ≤ 1 :=
        Metric.eventually_nhds_iff.mpr ⟨1, by norm_num, fun {y} hy => by
          simpa using le_of_lt hy⟩
      simpa [Real.dist_eq] using this
    filter_upwards [hmem, hball] with x hx hx1
    have hx0 : x ≠ 0 := hx
    have hsum : ∑ m ∈ Finset.range 4, x ^ m / (Nat.factorial m : ℝ)
        = 1 + x + x^2/2 + x^3/6 := by
      norm_num [Finset.sum_range_succ, Nat.factorial]
    have hb := Real.exp_bound (x := x) hx1 (n := 4) (by norm_num)
    rw [hsum] at hb
    norm_num [Nat.factorial] at hb
    have key : expRemainderQuot x - 1/6
        = (Real.exp x - (1 + x + x^2/2 + x^3/6)) / x^3 := by
      unfold expRemainderQuot
      field_simp
      ring
    rw [key, Real.norm_eq_abs, abs_div, abs_pow]
    rw [div_le_iff₀ (by positivity)]
    calc |Real.exp x - (1 + x + x ^ 2 / 2 + x ^ 3 / 6)|
        ≤ |x|^4 * (5/96) := hb
      _ ≤ |x| * (5/96 + 1/6) * |x|^3 := by
          nlinarith [abs_nonneg x, pow_nonneg (abs_nonneg x) 3]
  · have h0 : Tendsto (fun x : ℝ => |x|) (nhds 0) (nhds 0) := by
      simpa using (continuous_abs.tendsto (0:ℝ))
    have := h0.mul_const (5/96 + 1/6 : ℝ)
    simp only [zero_mul] at this
    exact this.mono_left nhdsWithin_le_nhds

/-- The substitution `t ↦ (a - t) r` maps the punctured neighbourhood of `a`
into the punctured neighbourhood of `0` when `r ≠ 0`. -/
theorem sub_mul_tendsto_punctured (a r : ℝ) (hr : r ≠ 0) :
    Tendsto (fun t : ℝ => (a - t) * r) (nhdsWithin a ({a}ᶜ : Set ℝ))
      (nhdsWithin 0 ({0}ᶜ : Set ℝ)) := by
  rw [tendsto_nhdsWithin_iff]
  constructor
  · have hc : Continuous (fun t : ℝ => (a - t) * r) :=
      (continuous_const.sub continuous_id).mul continuous_const
    have := hc.tendsto a
    simpa using this.mono_left nhdsWithin_le_nhds
  · filter_upwards [eventually_mem_nhdsWithin] with t ht
    have hta : t ≠ a := ht
    have : a - t ≠ 0 := sub_ne_zero.mpr (Ne.symm hta)
    exact mul_ne_zero this hr

/-- The remainder term in the rewritten general branch tends to `r^3/6`. -/
theorem expRemainderTerm_tendsto (a r : ℝ) (hr : r ≠ 0) :
    Tendsto (fun t => expRemainderTerm t a r) (nhdsWithin a ({a}ᶜ : Set ℝ))
      (nhds (r^3/6)) := by
  have hcomp : Tendsto (fun t => r^3 * expRemainderQuot ((a - t) * r))
      (nhdsWithin a ({a}ᶜ : Set ℝ)) (nhds (r^3 * (1/6))) :=
    (expRemainderQuot_tendsto.comp (sub_mul_tendsto_punctured a r hr)).const_mul (r^3)
  have heq : ∀ᶠ t in nhdsWithin a ({a}ᶜ : Set ℝ),
      r^3 * expRemainderQuot ((a - t) * r) = expRemainderTerm t a r := by
    filter_upwards [eventually_mem_nhdsWithin] with t ht
    have hta : t ≠ a := ht
    have hs : a - t ≠ 0 := sub_ne_zero.mpr (Ne.symm hta)
    unfold expRemainderQuot expRemainderTerm
    have h3 : ((a - t) * r)^3 = (a-t)^3 * r^3 := by ring
    rw [h3]
    field_simp
    ring
  have := hcomp.congr' heq
  simpa using this

set_option maxHeartbeats 1000000 in
/-- Rewriting of the general `fdamp3` branch over the common denominator,
valid away from the two removable singularities `t = a`, `t = -a`. -/
theorem mutualGeneral3_rewrite (t a r : ℝ) (hta : t ≠ a) (hsum : t + a ≠ 0) :
    mutualGeneral3 t a r =
      1 - Real.exp (-(a*r)) *
        ((mutualP3 t a r * expRemainderTerm t a r + mutualH3 t a r) / (a+t)^3) := by
  have hs : a - t ≠ 0 := sub_ne_zero.mpr (Ne.symm hta)
  have hat : a + t ≠ 0 := by
    intro h
    exact hsum (by linarith [h])
  have hd : a*a - t*t ≠ 0 := by
    intro h
    have : (a - t) * (a + t) = 0 := by nlinarith [h]
    rcases mul_eq_zero.mp this with h1 | h1
    · exact hs h1
    · exact hat h1
  have hd2 : t*t - a*a ≠ 0 := by
    intro h
    exact hd (by linarith)
  have hexp : Real.exp (-(t*r)) = Real.exp (-(a*r)) * Real.exp ((a-t)*r) := by
    rw [← Real.exp_add]
    ring_nf
  unfold mutualGeneral3 mutualP3 mutualH3 expRemainderTerm
  simp only
  rw [hexp]
  field_simp
  ring

set_option maxHeartbeats 2000000 in
/-- Rewriting of the general `fdamp5` branch over the common denominator. -/
theorem mutualGeneral5_rewrite (t a r : ℝ) (hta : t ≠ a) (hsum : t + a ≠ 0) :
    mutualGeneral5 t a r =
      1 - Real.exp (-(a*r)) *
        ((mutualP5 t a r * expRemainderTerm t a r + mutualH5 t a r) / (a+t)^3) := by
  have hs : a - t ≠ 0 := sub_ne_zero.mpr (Ne.symm hta)
  have hat : a + t ≠ 0 := by intro h; exact hsum (by linarith [h])
  have hd : a*a - t*t ≠ 0 := by
    intro h
    have : (a - t) * (a + t) = 0 := by nlinarith [h]
    rcases mul_eq_zero.mp this with h1 | h1
    · exact hs h1
    · exact hat h1
  have hd2 : t*t - a*a ≠ 0 := by intro h; exact hd (by linarith)
  have hexp : Real.exp (-(t*r)) = Real.exp (-(a*r)) * Real.exp ((a-t)*r) := by
    rw [← Real.exp_add]; ring_nf
  unfold mutualGeneral5 mutualP5 mutualH5 expRemainderTerm
  simp only
  rw [hexp]
  field_simp
  ring

set_option maxHeartbeats 1000000 in
/-- The general `fdamp3` branch tends to the degenerate closed form as
`alphaI → alphaJ`. -/
theorem mutualGeneral3_tendsto (a r : ℝ) (ha : 0 < a) (hr : 0 < r) :
    Tendsto (fun t => mutualGeneral3 t a r) (nhdsWithin a ({a}ᶜ : Set ℝ))
      (nhds (mutualDegenerate3 a r)) := by
  have hrne : r ≠ 0 := ne_of_gt hr
  have hPcont : Continuous (fun t : ℝ => mutualP3 t a r) := by
    unfold mutualP3; continuity
  have hHcont : Continuous (fun t : ℝ => mutualH3 t a r) := by
    unfold mutualH3; continuity
  have hDenomCont : Continuous (fun t : ℝ => (a + t)^3) := by continuity
  have hP : Tendsto (fun t : ℝ => mutualP3 t a r) (nhdsWithin a ({a}ᶜ : Set ℝ))
      (nhds (mutualP3 a a r)) :=
    (hPcont.tendsto a).mono_left nhdsWithin_le_nhds
  have hH : Tendsto (fun t : ℝ => mutualH3 t a r) (nhdsWithin a ({a}ᶜ : Set ℝ))
      (nhds (mutualH3 a a r)) :=
    (hHcont.tendsto a).mono_left nhdsWithin_le_nhds
  have hDen : Tendsto (fun t : ℝ => (a + t)^3) (nhdsWithin a ({a}ᶜ : Set ℝ))
      (nhds ((a + a)^3)) :=
    (hDenomCont.tendsto a).mono_left nhdsWithin_le_nhds
  have hDenNe : ((a + a)^3 : ℝ) ≠ 0 := by positivity
  have hNum : Tendsto
      (fun t => mutualP3 t a r * expRemainderTerm t a r + mutualH3 t a r)
      (nhdsWithin a ({a}ᶜ : Set ℝ))
      (nhds (mutualP3 a a r * (r^3/6) + mutualH3 a a r)) :=
    (hP.mul (expRemainderTerm_tendsto a r hrne)).add hH
  have hQuot : Tendsto
      (fun t => (mutualP3 t a r * expRemainderTerm t a r + mutualH3 t a r) / (a+t)^3)
      (nhdsWithin a ({a}ᶜ : Set ℝ))
      (nhds ((mutualP3 a a r * (r^3/6) + mutualH3 a a r) / (a+a)^3)) :=
    hNum.div hDen hDenNe
  have hWhole : Tendsto
      (fun t => 1 - Real.exp (-(a*r)) *
        ((mutualP3 t a r * expRemainderTerm t a r + mutualH3 t a r) / (a+t)^3))
      (nhdsWithin a ({a}ᶜ : Set ℝ))
      (nhds (1 - Real.exp (-(a*r)) *
        ((mutualP3 a a r * (r^3/6) + mutualH3 a a r) / (a+a)^3))) :=
    tendsto_const_nhds.sub (tendsto_const_nhds.mul hQuot)
  have heq : ∀ᶠ t in nhdsWithin a ({a}ᶜ : Set ℝ),
      ((1:ℝ) - Real.exp (-(a*r)) *
        ((mutualP3 t a r * expRemainderTerm t a r + mutualH3 t a r) / (a+t)^3))
        = mutualGeneral3 t a r := by
    have hopen : ∀ᶠ t : ℝ in nhds a, t + a ≠ 0 := by
      have hca : Continuous (fun t : ℝ => t + a) := by continuity
      exact (hca.tendsto a).eventually_ne (by positivity)
    filter_upwards [eventually_mem_nhdsWithin,
      eventually_nhdsWithin_of_eventually_nhds hopen] with t ht hta0
    exact (mutualGeneral3_rewrite t a r ht hta0).symm
  have hfinal := hWhole.congr' heq
  have hval : (1 : ℝ) - Real.exp (-(a*r)) *
      ((mutualP3 a a r * (r^3/6) + mutualH3 a a r) / (a+a)^3)
      = mutualDegenerate3 a r := by
    unfold mutualP3 mutualH3 mutualDegenerate3
    simp only
    have h8 : ((a+a)^3 : ℝ) = 8 * a^3 := by ring
    rw [h8]
    field_simp
    ring
  rw [hval] at hfinal
  exact hfinal

set_option maxHeartbeats 2000000 in
/-- The general `fdamp5` branch tends to the degenerate closed form as
`alphaI → alphaJ`. -/
theorem mutualGeneral5_tendsto (a r : ℝ) (ha : 0 < a) (hr : 0 < r) :
    Tendsto (fun t => mutualGeneral5 t a r) (nhdsWithin a ({a}ᶜ : Set ℝ))
      (nhds (mutualDegenerate5 a r)) := by
  have hrne : r ≠ 0 := ne_of_gt hr
  have hPcont : Continuous (fun t : ℝ => mutualP5 t a r) := by
    unfold mutualP5; continuity
  have hHcont : Continuous (fun t : ℝ => mutualH5 t a r) := by
    unfold mutualH5; continuity
  have hDenomCont : Continuous (fun t : ℝ => (a + t)^3) := by continuity
  have hP : Tendsto (fun t : ℝ => mutualP5 t a r) (nhdsWithin a ({a}ᶜ : Set ℝ))
      (nhds (mutualP5 a a r)) :=
    (hPcont.tendsto a).mono_left nhdsWithin_le_nhds
  have hH : Tendsto (fun t : ℝ => mutualH5 t a r) (nhdsWithin a ({a}ᶜ : Set ℝ))
      (nhds (mutualH5 a a r)) :=
    (hHcont.tendsto a).mono_left nhdsWithin_le_nhds
  have hDen : Tendsto (fun t : ℝ => (a + t)^3) (nhdsWithin a ({a}ᶜ : Set ℝ))
      (nhds ((a + a)^3)) :=
    (hDenomCont.tendsto a).mono_left nhdsWithin_le_nhds
  have hDenNe : ((a + a)^3 : ℝ) ≠ 0 := by positivity
  have hQuot : Tendsto
      (fun t => (mutualP5 t a r * expRemainderTerm t a r + mutualH5 t a r) / (a+t)^3)
      (nhdsWithin a ({a}ᶜ : Set ℝ))
      (nhds ((mutualP5 a a r * (r^3/6) + mutualH5 a a r) / (a+a)^3)) :=
    ((hP.mul (expRemainderTerm_tendsto a r hrne)).add hH).div hDen hDenNe
  have hWhole : Tendsto
      (fun t => 1 - Real.exp (-(a*r)) *
        ((mutualP5 t a r * expRemainderTerm t a r + mutualH5 t a r) / (a+t)^3))
      (nhdsWithin a ({a}ᶜ : Set ℝ))
      (nhds (1 - Real.exp (-(a*r)) *
        ((mutualP5 a a r * (r^3/6) + mutualH5 a a r) / (a+a)^3))) :=
    tendsto_const_nhds.sub (tendsto_const_nhds.mul hQuot)
  have heq : ∀ᶠ t in nhdsWithin a ({a}ᶜ : Set ℝ),
      ((1:ℝ) - Real.exp (-(a*r)) *
        ((mutualP5 t a r * expRemainderTerm t a r + mutualH5 t a r) / (a+t)^3))
        = mutualGeneral5 t a r := by
    have hopen : ∀ᶠ t : ℝ in nhds a, t + a ≠ 0 := by
      have hca : Continuous (fun t : ℝ => t + a) := by continuity
      exact (hca.tendsto a).eventually_ne (by positivity)
    filter_upwards [eventually_mem_nhdsWithin,
      eventually_nhdsWithin_of_eventually_nhds hopen] with t ht hta0
    exact (mutualGeneral5_rewrite t a r ht hta0).symm
  have hfinal := hWhole.congr' heq
  have hval : (1 : ℝ) - Real.exp (-(a*r)) *
      ((mutualP5 a a r * (r^3/6) + mutualH5 a a r) / (a+a)^3)
      = mutualDegenerate5 a r := by
    unfold mutualP5 mutualH5 mutualDegenerate5
    simp only
    have h8 : ((a+a)^3 : ℝ) = 8 * a^3 := by ring
    rw [h8]
    field_simp
    ring
  rw [hval] at hfinal
  exact hfinal

/-- On distinct alphas the source function takes the general branch. -/
theorem computeMutualFieldDampingFactors_general (t a r : ℝ) (h : t ≠ a) :
    computeMutualFieldDampingFactors t a r
      = (mutualGeneral3 t a r, mutualGeneral5 t a r) := by
  unfold computeMutualFieldDampingFactors mutualGeneral3 mutualGeneral5
  rw [if_neg h]

/-- On equal alphas the source function takes the degenerate branch. -/
theorem computeMutualFieldDampingFactors_degenerate (a r : ℝ) :
    computeMutualFieldDampingFactors a a r
      = (mutualDegenerate3 a r, mutualDegenerate5 a r) := by
  unfold computeMutualFieldDampingFactors mutualDegenerate3 mutualDegenerate5
  rw [if_pos rfl]

/-- Unconditional exchange symmetry of the source function. -/
theorem computeMutualFieldDampingFactors_symm (aI aJ r : ℝ) :
    computeMutualFieldDampingFactors aI aJ r
      = computeMutualFieldDampingFactors aJ aI r := by
  rcases eq_or_ne aI aJ with h | h
  · rw [h]
  · unfold computeMutualFieldDampingFactors
    rw [if_neg h, if_neg (Ne.symm h)]
    simp only
    rcases eq_or_ne (aJ * aJ - aI * aI) 0 with hz | hz
    · have hz2 : aI * aI - aJ * aJ = 0 := by linarith
      rw [hz, hz2]
      simp [div_zero]
    · have hz2 : aI * aI - aJ * aJ ≠ 0 := fun h0 => hz (by linarith)
      refine Prod.ext ?_ ?_ <;> (simp only; field_simp; ring)

/-- C3: the mutual-field damping factors are symmetric in the two atoms —
for every `r > 0` exchanging `alphaI` and `alphaJ` returns the same
`fdamp3` and `fdamp5` — and the general two-exponential formula (with
partial-fraction weights `A = aJ^2/(aJ^2-aI^2)`, `B = aI^2/(aI^2-aJ^2)`)
reduces continuously to the degenerate equal-alpha closed form in the limit
`alphaI → alphaJ`. -/
theorem mutualFieldDamping_symmetric_and_limit :
    (∀ aI aJ r : ℝ, 0 < r →
      computeMutualFieldDampingFactors aI aJ r
        = computeMutualFieldDampingFactors aJ aI r) ∧
    (∀ a r : ℝ, 0 < a → 0 < r →
      Tendsto (fun t => (computeMutualFieldDampingFactors t a r).1)
        (nhdsWithin a ({a}ᶜ : Set ℝ))
        (nhds ((computeMutualFieldDampingFactors a a r).1)) ∧
      Tendsto (fun t => (computeMutualFieldDampingFactors t a r).2)
        (nhdsWithin a ({a}ᶜ : Set ℝ))
        (nhds ((computeMutualFieldDampingFactors a a r).2))) := by
  constructor
  · intro aI aJ r _
    exact computeMutualFieldDampingFactors_symm aI aJ r
  · intro a r ha hr
    have hval := computeMutualFieldDampingFactors_degenerate a r
    have hev1 : ∀ᶠ t in nhdsWithin a ({a}ᶜ : Set ℝ),
        mutualGeneral3 t a r = (computeMutualFieldDampingFactors t a r).1 := by
      filter_upwards [eventually_mem_nhdsWithin] with t ht
      rw [computeMutualFieldDampingFactors_general t a r ht]
    have hev2 : ∀ᶠ t in nhdsWithin a ({a}ᶜ : Set ℝ),
        mutualGeneral5 t a r = (computeMutualFieldDampingFactors t a r).2 := by
      filter_upwards [eventually_mem_nhdsWithin] with t ht
      rw [computeMutualFieldDampingFactors_general t a r ht]
    constructor
    · have := (mutualGeneral3_tendsto a r ha hr).congr' hev1
      rw [hval]
      simpa using this
    · have := (mutualGeneral5_tendsto a r ha hr).congr' hev2
      rw [hval]
      simpa using this

/-- Witness for C3: symmetry instantiated at `alphaI = 1`, `alphaJ = 2`,
`r = 1`, and the equal-alpha limit at `alphaJ = 1`, `r = 1`. -/
theorem mutualFieldDamping_symmetric_and_limit_witness :
    computeMutualFieldDampingFactors 1 2 1 = computeMutualFieldDampingFactors 2 1 1 ∧
    Tendsto (fun t => (computeMutualFieldDampingFactors t 1 1).1)
      (nhdsWithin 1 ({1}ᶜ : Set ℝ))
      (nhds ((computeMutualFieldDampingFactors 1 1 1).1)) :=
  ⟨mutualFieldDamping_symmetric_and_limit.1 1 2 1 (by norm_num),
   (mutualFieldDamping_symmetric_and_limit.2 1 1 (by norm_num) (by norm_num)).1⟩

/-- C10: the 13-element result of `getSystemMultipoleMoments` has a symmetric
quadrupole block (element 5 = element 7, element 6 = element 10,
element 9 = element 11) and, in exact arithmetic, the trace of the quadrupole
block (elements 4 + 8 + 12) is zero. -/
theorem systemMultipoleMoments_symmetric_traceless (atoms : List MomentAtom) :
    (computeSystemMultipoleMoments atoms).getD 5 0
        = (computeSystemMultipoleMoments atoms).getD 7 0 ∧
    (computeSystemMultipoleMoments atoms).getD 6 0
        = (computeSystemMultipoleMoments atoms).getD 10 0 ∧
    (computeSystemMultipoleMoments atoms).getD 9 0
        = (computeSystemMultipoleMoments atoms).getD 11 0 ∧
    (computeSystemMultipoleMoments atoms).getD 4 0
      + (computeSystemMultipoleMoments atoms).getD 8 0
      + (computeSystemMultipoleMoments atoms).getD 12 0 = 0 := by
  unfold computeSystemMultipoleMoments
  simp only [List.getD_cons_succ, List.getD_cons_zero]
  refine ⟨?_, ?_, ?_, ?_⟩
  · have h : (atoms.map (fun a => localX atoms a * localY atoms a * a.charge
        + localX atoms a * netDipoleY a + localY atoms a * netDipoleX a))
        = (atoms.map (fun a => localY atoms a * localX atoms a * a.charge
        + localY atoms a * netDipoleX a + localX atoms a * netDipoleY a)) := by
      apply List.map_congr_left
      intro a _
      ring
    rw [h]
  · have h : (atoms.map (fun a => localX atoms a * localZ atoms a * a.charge
        + localX atoms a * netDipoleZ a + localZ atoms a * netDipoleX a))
        = (atoms.map (fun a => localZ atoms a * localX atoms a * a.charge
        + localZ atoms a * netDipoleX a + localX atoms a * netDipoleZ a)) := by
      apply List.map_congr_left
      intro a _
      ring
    rw [h]
  · have h : (atoms.map (fun a => localY atoms a * localZ atoms a * a.charge
        + localY atoms a * netDipoleZ a + localZ atoms a * netDipoleY a))
        = (atoms.map (fun a => localZ atoms a * localY atoms a * a.charge
        + localZ atoms a * netDipoleY a + localY atoms a * netDipoleZ a)) := by
      apply List.map_congr_left
      intro a _
      ring
    rw [h]
  · have hneg : (atoms.map (fun a => -3 * (a.quad0 + a.quad3))).sum
        = -((atoms.map (fun a => 3 * a.quad0)).sum
            + (atoms.map (fun a => 3 * a.quad3)).sum) := by
      induction atoms with
      | nil => simp
      | cons b bs ih =>
          simp only [List.map_cons, List.sum_cons, ih]
          ring
    rw [hneg]
    ring

/-- C8: `copyParametersToContext` throws when the number of multipoles differs
from the number of atoms, and throws when a newly supplied quadrupole
component is non-zero while the kernel was built with `hasQuadrupoles =
false`; in both error cases the device arrays are unmodified, and on success
the parameters are re-uploaded and the cached multipoles are invalidated. -/
theorem copyParametersToContext_checksThenUploads
    (force : List MultipoleParams) (st : MultipoleKernelState) :
    (force.length ≠ st.numAtoms →
      copyParametersToContext force st
        = (st, some ("updateParametersInContext: The number of multipoles has changed"))) ∧
    (force.length = st.numAtoms → st.hasQuadrupoles = false →
      (∀ p ∈ force, quadrupoleWellFormed p) →
      (∃ p ∈ force, ∃ j < 9, p.quadrupole.getD j 0 ≠ 0) →
      copyParametersToContext force st
        = (st, some ("updateParametersInContext: Cannot set a non-zero quadrupole moment, because quadrupoles were excluded from the kernel"))) ∧
    ((copyParametersToContext force st).2 ≠ none →
      (copyParametersToContext force st).1 = st) ∧
    ((copyParametersToContext force st).2 = none →
      (copyParametersToContext force st).1.multipolesAreValid = false ∧
      (copyParametersToContext force st).1.posqCharges
        = force.map (fun p => p.charge) ++ st.posqCharges.drop force.length ∧
      (copyParametersToContext force st).1.localQuadrupoles
        = force.flatMap storedQuadrupole
          ++ List.replicate (5 * (st.paddedNumAtoms - force.length)) 0) := by
  refine ⟨?_, ?_, ?_, ?_⟩
  · intro hne
    unfold copyParametersToContext
    rw [if_pos hne]
  · intro hlen hq hwf ⟨p, hp, j, hj, hjne⟩
    unfold copyParametersToContext
    rw [if_neg (by simp [hlen])]
    have hany : (force.flatMap storedQuadrupole).any (fun q => decide (q ≠ 0))
        = true := by
      rw [List.any_eq_true]
      have hwfp := hwf p hp
      -- from a nonzero component at any index < 9, produce a nonzero stored one
      have hstored : ∃ q ∈ storedQuadrupole p, q ≠ 0 := by
        by_contra hall
        push_neg at hall
        have h0 := hall (p.quadrupole.getD 0 0) (by simp [storedQuadrupole])
        have h1 := hall (p.quadrupole.getD 1 0) (by simp [storedQuadrupole])
        have h2 := hall (p.quadrupole.getD 2 0) (by simp [storedQuadrupole])
        have h4 := hall (p.quadrupole.getD 4 0) (by simp [storedQuadrupole])
        have h5 := hall (p.quadrupole.getD 5 0) (by simp [storedQuadrupole])
        obtain ⟨hl, h31, h62, h75, htr⟩ := hwfp
        interval_cases j <;> simp_all
      obtain ⟨q, hqmem, hqne⟩ := hstored
      exact ⟨q, List.mem_flatMap.mpr ⟨p, hp, hqmem⟩, by simpa using hqne⟩
    rw [if_pos ⟨hq, hany⟩]
  · intro hne
    unfold copyParametersToContext at hne ⊢
    by_cases h1 : force.length ≠ st.numAtoms
    · rw [if_pos h1]
    · rw [if_neg h1] at hne ⊢
      simp only at hne ⊢
      by_cases h2 : st.hasQuadrupoles = false ∧
          (force.flatMap storedQuadrupole).any (fun q => decide (q ≠ 0))
      · rw [if_pos h2]
      · rw [if_neg h2] at hne
        simp at hne
  · intro hok
    unfold copyParametersToContext at hok ⊢
    by_cases h1 : force.length ≠ st.numAtoms
    · rw [if_pos h1] at hok
      simp at hok
    · rw [if_neg h1] at hok ⊢
      simp only at hok ⊢
      by_cases h2 : st.hasQuadrupoles = false ∧
          (force.flatMap storedQuadrupole).any (fun q => decide (q ≠ 0))
      · rw [if_pos h2] at hok
        simp at hok
      · rw [if_neg h2]
        simp

/-- Witness for C8: a one-atom context; the count check fires on an empty
parameter list, and a super-tiny valid update succeeds and invalidates the
cached multipoles. -/
theorem copyParametersToContext_checksThenUploads_witness :
    ([] : List MultipoleParams).length ≠ 1 ∧
    copyParametersToContext []
      { numAtoms := 1, paddedNumAtoms := 1, hasQuadrupoles := false,
        posqCharges := [0], dampingAndThole := [(0,0)], polarizability := [0],
        multipoleParticles := [(0,0,0,0)], localDipoles := [0,0,0],
        localQuadrupoles := [0,0,0,0,0], multipolesAreValid := true }
      = ({ numAtoms := 1, paddedNumAtoms := 1, hasQuadrupoles := false,
           posqCharges := [0], dampingAndThole := [(0,0)], polarizability := [0],
           multipoleParticles := [(0,0,0,0)], localDipoles := [0,0,0],
           localQuadrupoles := [0,0,0,0,0], multipolesAreValid := true },
         some ("updateParametersInContext: The number of multipoles has changed")) :=
  ⟨by decide,
   (copyParametersToContext_checksThenUploads [] _).1 (by decide)⟩

theorem positionsChanged_false_iff {χ : Type} (s : CachedMultipoleState χ)
    (hlen : s.posq.length = s.lastPositions.length) :
    positionsChanged s = false ↔ s.posq = s.lastPositions := by
  unfold positionsChanged
  rw [List.any_eq_false]
  constructor
  · intro h
    apply List.ext_getElem hlen
    intro i h1 h2
    have hmem : (s.posq[i], s.lastPositions[i]) ∈ s.posq.zip s.lastPositions := by
      rw [List.mem_iff_getElem]
      refine ⟨i, ?_, ?_⟩
      · simpa [List.length_zip, hlen] using h2
      · simp [List.getElem_zip]
    have := h _ hmem
    simp only [Bool.or_eq_true, decide_eq_true_eq, not_or, not_not] at this
    obtain ⟨⟨hx, hy⟩, hz⟩ := this
    exact Prod.ext hx (Prod.ext hy hz)
  · intro h pq hpq
    rw [h] at hpq
    obtain ⟨i, hi, heq⟩ := List.mem_iff_getElem.mp hpq
    rw [← heq]
    simp [List.getElem_zip]

/-- C9: every cached-multipole accessor first validates the cache — if any
position differs from the ones recorded at the last force evaluation, or the
cache was invalidated by a parameter update, a full force evaluation runs
before the cached arrays are read, and otherwise the cached values are
returned without recomputation — so the value returned always corresponds to
the current particle positions. -/
theorem cachedAccessor_current {χ V : Type} (compute : List ParticlePos → χ)
    (view : χ → V) (s : CachedMultipoleState χ)
    (hinv : cacheInvariant compute s) :
    cachedAccessor compute view s = view (compute s.posq) ∧
    ((ensureMultipolesValid compute s).2 = false ↔
      s.multipolesAreValid = true ∧ s.posq = s.lastPositions) := by
  obtain ⟨hlen, hvalid⟩ := hinv
  constructor
  · unfold cachedAccessor ensureMultipolesValid
    by_cases hv : s.multipolesAreValid && !positionsChanged s
    · rw [if_pos hv]
      simp only [Bool.and_eq_true, Bool.not_eq_true'] at hv
      obtain ⟨hb, hc⟩ := hv
      have hpos := (positionsChanged_false_iff s hlen).mp hc
      rw [hvalid hb, hpos]
    · rw [if_neg hv]
      simp [executeRecordsCache]
  · unfold ensureMultipolesValid
    by_cases hv : s.multipolesAreValid && !positionsChanged s
    · rw [if_pos hv]
      simp only [Bool.and_eq_true, Bool.not_eq_true'] at hv
      obtain ⟨hb, hc⟩ := hv
      simp [hb, (positionsChanged_false_iff s hlen).mp hc]
    · rw [if_neg hv]
      simp only [Bool.and_eq_true, Bool.not_eq_true'] at hv
      constructor
      · intro h
        simp at h
      · intro ⟨hb, hp⟩
        exact absurd ⟨hb, (positionsChanged_false_iff s hlen).mpr hp⟩ hv

/-- Witness for C9 with a concrete two-particle state whose cache is stale:
the accessor returns the value recomputed from the current positions. -/
theorem cachedAccessor_current_witness :
    cachedAccessor (χ := List ParticlePos) (V := List ParticlePos) id id
      { posq := [((1:ℚ), (2:ℚ), (3:ℚ)), ((0:ℚ), (0:ℚ), (1:ℚ))],
        lastPositions := [((1:ℚ), (2:ℚ), (3:ℚ)), ((0:ℚ), (0:ℚ), (0:ℚ))],
        multipolesAreValid := true,
        cache := [((1:ℚ), (2:ℚ), (3:ℚ)), ((0:ℚ), (0:ℚ), (0:ℚ))] }
      = [((1:ℚ), (2:ℚ), (3:ℚ)), ((0:ℚ), (0:ℚ), (1:ℚ))] :=
  (cachedAccessor_current id id _ (by constructor <;> simp)).1

theorem diisCountAux_le {S : Type} (k : DIISKernels S) (n : ℕ) (eps : ℝ) :
    ∀ (fuel i : ℕ) (s : S), diisCountAux k n eps i fuel s ≤ fuel := by
  intro fuel
  induction fuel with
  | zero => intro i s; simp [diisCountAux]
  | succ m ih =>
      intro i s
      simp only [diisCountAux]
      split
      · omega
      · have := ih (i+1) ((iterateDipolesByDIIS k n eps (k.computeInducedField s) i).2)
        omega

theorem diisTrajAux_shift {S : Type} (k : DIISKernels S) (n : ℕ) (eps : ℝ)
    (i : ℕ) (s : S) :
    ∀ j : ℕ, diisTrajAux k n eps i s (j+1)
      = diisTrajAux k n eps (i+1)
          ((iterateDipolesByDIIS k n eps (k.computeInducedField s) i).2) j := by
  intro j
  induction j with
  | zero => simp [diisTrajAux]
  | succ m ih =>
      show (iterateDipolesByDIIS k n eps
        (k.computeInducedField (diisTrajAux k n eps i s (m+1))) (i+(m+1))).2 = _
      rw [ih]
      have hidx : i + (m+1) = (i+1) + m := by omega
      rw [hidx]
      rfl

theorem diisPassAux_shift {S : Type} (k : DIISKernels S) (n : ℕ) (eps : ℝ)
    (i : ℕ) (s : S) (j : ℕ) :
    diisPassAux k n eps i s (j+1)
      = diisPassAux k n eps (i+1)
          ((iterateDipolesByDIIS k n eps (k.computeInducedField s) i).2) j := by
  unfold diisPassAux
  rw [diisTrajAux_shift]
  have hidx : i + (j+1) = (i+1) + j := by omega
  rw [hidx]

theorem diisLoopAux_eq_traj {S : Type} (k : DIISKernels S) (n : ℕ) (eps : ℝ) :
    ∀ (fuel i : ℕ) (s : S),
      diisLoopAux k n eps i fuel s
        = diisTrajAux k n eps i s (diisCountAux k n eps i fuel s) := by
  intro fuel
  induction fuel with
  | zero => intro i s; simp [diisLoopAux, diisCountAux, diisTrajAux]
  | succ m ih =>
      intro i s
      simp only [diisLoopAux, diisCountAux]
      split
      · simp [diisTrajAux]
      · rw [ih]
        rw [show 1 + diisCountAux k n eps (i+1) m
              ((iterateDipolesByDIIS k n eps (k.computeInducedField s) i).2)
            = (diisCountAux k n eps (i+1) m
              ((iterateDipolesByDIIS k n eps (k.computeInducedField s) i).2)) + 1
          from by omega]
        rw [diisTrajAux_shift]

theorem diisPass_before_count {S : Type} (k : DIISKernels S) (n : ℕ) (eps : ℝ) :
    ∀ (fuel i : ℕ) (s : S) (j : ℕ), j + 1 < diisCountAux k n eps i fuel s →
      diisPassAux k n eps i s j = false := by
  intro fuel
  induction fuel with
  | zero => intro i s j h; simp [diisCountAux] at h
  | succ m ih =>
      intro i s j h
      simp only [diisCountAux] at h
      by_cases hp : (iterateDipolesByDIIS k n eps (k.computeInducedField s) i).1
      · rw [if_pos hp] at h; omega
      · rw [if_neg hp] at h
        match j with
        | 0 =>
            unfold diisPassAux
            simp only [diisTrajAux, Nat.add_zero]
            exact Bool.not_eq_true _ ▸ (by simpa using hp)
        | j'+1 =>
            rw [diisPassAux_shift]
            exact ih (i+1) _ j' (by omega)

theorem diisPass_at_early_stop {S : Type} (k : DIISKernels S) (n : ℕ) (eps : ℝ) :
    ∀ (fuel i : ℕ) (s : S), diisCountAux k n eps i fuel s < fuel →
      0 < diisCountAux k n eps i fuel s ∧
      diisPassAux k n eps i s (diisCountAux k n eps i fuel s - 1) = true := by
  intro fuel
  induction fuel with
  | zero => intro i s h; omega
  | succ m ih =>
      intro i s h
      simp only [diisCountAux] at h ⊢
      by_cases hp : (iterateDipolesByDIIS k n eps (k.computeInducedField s) i).1
      · rw [if_pos hp] at h ⊢
        refine ⟨by omega, ?_⟩
        unfold diisPassAux
        simpa [diisTrajAux] using hp
      · rw [if_neg hp] at h ⊢
        have hrec := ih (i+1)
          ((iterateDipolesByDIIS k n eps (k.computeInducedField s) i).2) (by omega)
        refine ⟨by omega, ?_⟩
        have h0 : 0 < diisCountAux k n eps (i+1) m
            ((iterateDipolesByDIIS k n eps (k.computeInducedField s) i).2) :=
          hrec.1
        rw [show 1 + diisCountAux k n eps (i+1) m
              ((iterateDipolesByDIIS k n eps (k.computeInducedField s) i).2) - 1
            = (diisCountAux k n eps (i+1) m
              ((iterateDipolesByDIIS k n eps (k.computeInducedField s) i).2) - 1)
              + 1 from by omega]
        rw [diisPassAux_shift]
        exact hrec.2

theorem diisCount_full_when_no_pass {S : Type} (k : DIISKernels S) (n : ℕ)
    (eps : ℝ) :
    ∀ (fuel i : ℕ) (s : S),
      (∀ j < fuel, diisPassAux k n eps i s j = false) →
      diisCountAux k n eps i fuel s = fuel := by
  intro fuel
  induction fuel with
  | zero => intro i s _; simp [diisCountAux]
  | succ m ih =>
      intro i s hall
      simp only [diisCountAux]
      have h0 := hall 0 (by omega)
      unfold diisPassAux at h0
      simp only [diisTrajAux, Nat.add_zero] at h0
      rw [if_neg (by simp [h0])]
      rw [ih (i+1) _ (fun j hj => by
        have := hall (j+1) (by omega)
        rwa [diisPassAux_shift] at this)]
      omega

/-- C1: the Mutual/DIIS solver performs at most `maxInducedIterations`
iterations; after each iteration the convergence test is
`48.033324*sqrt(max(total1, total2)/numAtoms) < inducedEpsilon` and the loop
stops early exactly when it passes (no test passed at any earlier iteration);
when the cap is exhausted without the test passing, no exception is raised —
the loop simply returns the state after the final iteration, so the last
dipole estimate is the result. -/
theorem diisSolver_cap_convergenceTest_silent :
    ∀ (S : Type) (k : DIISKernels S) (numAtoms : ℕ) (eps : ℝ)
      (maxInducedIterations : ℕ) (s : S),
    diisIterCount k numAtoms eps maxInducedIterations s ≤ maxInducedIterations ∧
    diisSolve k numAtoms eps maxInducedIterations s
      = diisTrajAux k numAtoms eps 0 s
          (diisIterCount k numAtoms eps maxInducedIterations s) ∧
    (∀ j, j + 1 < diisIterCount k numAtoms eps maxInducedIterations s →
      diisPassAux k numAtoms eps 0 s j = false) ∧
    (diisIterCount k numAtoms eps maxInducedIterations s < maxInducedIterations →
      0 < diisIterCount k numAtoms eps maxInducedIterations s ∧
      diisPassAux k numAtoms eps 0 s
        (diisIterCount k numAtoms eps maxInducedIterations s - 1) = true) ∧
    ((∀ j < maxInducedIterations, diisPassAux k numAtoms eps 0 s j = false) →
      diisSolve k numAtoms eps maxInducedIterations s
        = diisTrajAux k numAtoms eps 0 s maxInducedIterations) ∧
    (∀ errs : List (ℝ × ℝ), diisConverged numAtoms eps errs = true ↔
      48.033324 * Real.sqrt
          (max ((errs.map Prod.fst).sum) ((errs.map Prod.snd).sum) / numAtoms)
        < eps) := by
  intro S k numAtoms eps maxIter s
  refine ⟨diisCountAux_le k numAtoms eps maxIter 0 s,
          diisLoopAux_eq_traj k numAtoms eps maxIter 0 s,
          fun j hj => diisPass_before_count k numAtoms eps maxIter 0 s j hj,
          fun h => diisPass_at_early_stop k numAtoms eps maxIter 0 s h,
          fun hall => ?_, fun errs => ?_⟩
  · unfold diisSolve
    rw [diisLoopAux_eq_traj]
    rw [diisCount_full_when_no_pass k numAtoms eps maxIter 0 s hall]
  · unfold diisConverged
    split
    · simp_all
    · simp_all

/-- Witness for C1: the theorem instantiated on a concrete two-iteration
solver over `ℕ` state. -/
theorem diisSolver_cap_convergenceTest_silent_witness :
    diisIterCount diisWitnessKernels 1 1 2 0 ≤ 2 :=
  (diisSolver_cap_convergenceTest_silent ℕ diisWitnessKernels 1 1 2 0).1

theorem extrapLoop_dipole {α : Type} (T applyPolar : α → α) :
    ∀ (n : ℕ) (s : ExtrapolatedState α),
      (extrapLoop T applyPolar n s).dipole
        = (fun v => applyPolar (T v))^[n] s.dipole := by
  intro n
  induction n with
  | zero => intro s; simp [extrapLoop]
  | succ m ih =>
      intro s
      show (extrapLoop T applyPolar m _).dipole = _
      rw [ih]
      simp [iterateExtrapolatedM, computeInducedFieldM,
        Function.iterate_succ_apply]

theorem extrapLoop_extrapolated {α : Type} (T applyPolar : α → α) :
    ∀ (n : ℕ) (s : ExtrapolatedState α),
      (extrapLoop T applyPolar n s).extrapolated
        = s.extrapolated
          ++ (List.range n).map (fun j => (fun v => applyPolar (T v))^[j+1] s.dipole) := by
  intro n
  induction n with
  | zero => intro s; simp [extrapLoop]
  | succ m ih =>
      intro s
      show (extrapLoop T applyPolar m _).extrapolated = _
      rw [ih]
      simp only [iterateExtrapolatedM, computeInducedFieldM, List.append_assoc,
        List.singleton_append]
      rw [List.range_succ_eq_map, List.map_cons, List.map_map]
      refine congrArg (s.extrapolated ++ ·) (List.cons_eq_cons.mpr ⟨by simp, ?_⟩)
      apply List.map_congr_left
      intro j _
      simp [Function.iterate_succ_apply]

theorem extrapLoop_fieldEvals {α : Type} (T applyPolar : α → α) :
    ∀ (n : ℕ) (s : ExtrapolatedState α),
      (extrapLoop T applyPolar n s).fieldEvals = s.fieldEvals + n := by
  intro n
  induction n with
  | zero => intro s; simp [extrapLoop]
  | succ m ih =>
      intro s
      show (extrapLoop T applyPolar m _).fieldEvals = _
      rw [ih]
      simp only [iterateExtrapolatedM, computeInducedFieldM]
      omega

theorem getD_map_range {α : Type} [Zero α] (f : ℕ → α) (n i : ℕ) (h : i < n) :
    ((List.range n).map f).getD i 0 = f i := by
  rw [List.getD_eq_getElem _ _ (by simpa using h)]
  simp

set_option maxHeartbeats 800000 in
/-- C2: extrapolated polarization is non-iterative with no convergence test:
the direct dipole is recorded as the order-0 term, the induced-field operator
is applied exactly `maxExtrapolationOrder - 1` further times in the order
recursion (one induced-field evaluation per order, each order recorded), and
the final induced dipole is the linear combination of the recorded order
dipoles whose `i`-th weight is the summed-suffix coefficient
`extPartCoefficients coeffs i` (the sum of the supplied extrapolation
coefficients from index `i` to the end). -/
theorem extrapolatedDipoles_nonIterative_suffixWeights
    (α : Type) [AddCommMonoid α] [Module ℝ α]
    (T applyPolar : α → α) (coeffs : List ℝ) (s : ExtrapolatedState α)
    (hlen : 1 ≤ coeffs.length) :
    (computeExtrapolatedDipoles T applyPolar coeffs coeffs.length s).extrapolated.length
        = coeffs.length ∧
    (∀ i < coeffs.length,
      (computeExtrapolatedDipoles T applyPolar coeffs coeffs.length s).extrapolated.getD i 0
        = (fun v => applyPolar (T v))^[i] s.dipole) ∧
    (computeExtrapolatedDipoles T applyPolar coeffs coeffs.length s).dipole
        = ∑ i ∈ Finset.range coeffs.length,
            extPartCoefficients coeffs i • (fun v => applyPolar (T v))^[i] s.dipole ∧
    (extrapLoop T applyPolar (coeffs.length - 1) (initExtrapolatedM s)).fieldEvals
        = s.fieldEvals + (coeffs.length - 1) ∧
    (computeExtrapolatedDipoles T applyPolar coeffs coeffs.length s).fieldEvals
        = s.fieldEvals + coeffs.length := by
  have hext : (extrapLoop T applyPolar (coeffs.length - 1)
      (initExtrapolatedM s)).extrapolated
      = [s.dipole] ++ (List.range (coeffs.length - 1)).map
          (fun j => (fun v => applyPolar (T v))^[j+1] s.dipole) := by
    rw [extrapLoop_extrapolated]
    simp [initExtrapolatedM]
  have hlenext : (extrapLoop T applyPolar (coeffs.length - 1)
      (initExtrapolatedM s)).extrapolated.length = coeffs.length := by
    rw [hext]
    simp
    omega
  have hresext : (computeExtrapolatedDipoles T applyPolar coeffs coeffs.length
      s).extrapolated
      = (extrapLoop T applyPolar (coeffs.length - 1)
          (initExtrapolatedM s)).extrapolated := by
    unfold computeExtrapolatedDipoles computeInducedFieldM computeExtrapolatedM
    rfl
  have hgetD : ∀ i < coeffs.length,
      (computeExtrapolatedDipoles T applyPolar coeffs coeffs.length
        s).extrapolated.getD i 0
      = (fun v => applyPolar (T v))^[i] s.dipole := by
    intro i hi
    rw [hresext, hext]
    match i with
    | 0 => simp
    | j+1 =>
        simp only [List.singleton_append, List.getD_cons_succ]
        rw [getD_map_range _ _ _ (by omega)]
  refine ⟨by rw [hresext]; exact hlenext, hgetD, ?_, ?_, ?_⟩
  · have hdip : (computeExtrapolatedDipoles T applyPolar coeffs coeffs.length
        s).dipole
        = ∑ i ∈ Finset.range coeffs.length, extPartCoefficients coeffs i •
            (extrapLoop T applyPolar (coeffs.length - 1)
              (initExtrapolatedM s)).extrapolated.getD i 0 := by
      unfold computeExtrapolatedDipoles computeInducedFieldM computeExtrapolatedM
      simp only
      rw [hlenext]
    rw [hdip]
    apply Finset.sum_congr rfl
    intro i hi
    rw [Finset.mem_range] at hi
    have := hgetD i hi
    rw [hresext] at this
    rw [this]
  · rw [extrapLoop_fieldEvals]
    simp [initExtrapolatedM]
  · unfold computeExtrapolatedDipoles computeInducedFieldM computeExtrapolatedM
    simp only
    rw [extrapLoop_fieldEvals]
    simp only [initExtrapolatedM]
    omega

/-- Witness for C2: two extrapolation coefficients over `α = ℝ` with identity
field operator; the pipeline records exactly two orders. -/
theorem extrapolatedDipoles_nonIterative_suffixWeights_witness :
    (computeExtrapolatedDipoles (α := ℝ) id id [1, 1] ([(1:ℝ), 1]).length
      { dipole := 2, field := 0, extrapolated := [], fieldEvals := 0 }).extrapolated.length
      = ([(1:ℝ), 1]).length :=
  (extrapolatedDipoles_nonIterative_suffixWeights ℝ id id [1, 1]
    { dipole := 2, field := 0, extrapolated := [], fieldEvals := 0 }
    (by norm_num)).1

/-- C5: in every force evaluation the torque-to-force mapping runs strictly
after all torque contributions are finalized: in the AMOEBA trace the mapping
is followed only by the recording of the last positions (which accumulates no
torque), it does not occur earlier, and the direct-space electrostatics, the
PME reciprocal passes, the GK finalization and — for Extrapolated
polarization — the dipole-response force correction all precede it; in the
HIPPO trace the torque-to-force post-computation is the final step. -/
theorem torqueMapping_runs_last :
    ∀ (usePME hasGK includeEnergy hasExceptions : Bool)
      (pol : PolarizationKind) (n : ℕ),
    (∃ pre, amoebaExecuteTrace usePME hasGK pol n
        = pre ++ [ExecStep.mapTorque, ExecStep.recordLastPositions] ∧
      ExecStep.mapTorque ∉ pre ∧
      accumulatesTorque ExecStep.recordLastPositions = false ∧
      (pol = PolarizationKind.extrapolated →
        ExecStep.addExtrapolatedGradient ∈ pre) ∧
      ExecStep.electrostatics ∈ pre ∧
      (usePME = true → ExecStep.pmeFixedForce ∈ pre ∧
        ExecStep.pmeInducedForce ∈ pre) ∧
      (usePME = false → hasGK = true → ExecStep.gkFinishComputation ∈ pre)) ∧
    (∃ pre2, hippoExecuteTrace usePME includeEnergy hasExceptions
        = pre2 ++ [ExecStep.mapTorque] ∧
      ExecStep.mapTorque ∉ pre2 ∧
      ExecStep.nonbondedInteractions ∈ pre2 ∧
      (usePME = true → ExecStep.pmeFixedForce ∈ pre2 ∧
        ExecStep.pmeInducedForce ∈ pre2 ∧ ExecStep.pmeSelfEnergy ∈ pre2) ∧
      (hasExceptions = true → ExecStep.computeExceptions ∈ pre2)) := by
  intro usePME hasGK includeEnergy hasExceptions pol n
  constructor
  · refine ⟨[ExecStep.computeMoments]
      ++ (if usePME then
            [.pmeTransformMultipoles, .pmeSpreadFixedMultipoles, .forwardFFT,
             .convolution, .inverseFFT, .pmeFixedPotential, .pmeTransformPotential,
             .pmeFixedForce, .computeFixedField, .recordInducedDipoles,
             .pmeSpreadInducedDipoles, .forwardFFT, .convolution, .inverseFFT,
             .pmeInducedPotential]
            ++ (if pol = .extrapolated then [.extrapolatedDipoles] else [])
            ++ List.replicate n .inducedIteration
            ++ [.electrostatics, .pmeTransformPotential, .pmeInducedForce]
          else
            (if hasGK then [.gkBornRadii] else [])
            ++ [.computeFixedField, .recordInducedDipoles]
            ++ (if pol = .extrapolated then [.extrapolatedDipoles] else [])
            ++ List.replicate n .inducedIteration
            ++ [.electrostatics]
            ++ (if hasGK then [.gkFinishComputation] else []))
      ++ (if pol = .extrapolated then [.addExtrapolatedGradient] else []),
      ?_, ?_, ?_, ?_, ?_, ?_, ?_⟩
    · simp [amoebaExecuteTrace]
    · cases usePME <;> cases hasGK <;> cases pol <;>
        simp [List.mem_append, List.mem_replicate]
    · rfl
    · intro hp
      cases usePME <;> simp [hp, List.mem_append]
    · cases usePME <;> simp [List.mem_append]
    · intro hp
      simp [hp, List.mem_append]
    · intro hp hg
      simp [hp, hg, List.mem_append]
  · refine ⟨[ExecStep.nonbondedInteractions, ExecStep.computeMoments]
      ++ (if usePME then
            [.pmeTransformMultipoles, .pmeSpreadFixedMultipoles, .forwardFFT,
             .convolution, .inverseFFT, .pmeFixedPotential, .pmeTransformPotential,
             .pmeFixedForce, .dispersionPme]
          else [])
      ++ [.computeFixedField]
      ++ (if hasExceptions then [.fixedFieldExceptions] else [])
      ++ [.extrapolatedDipoles]
      ++ (if includeEnergy then [.polarizationEnergy] else [])
      ++ (if usePME then
            [.pmeTransformPotential, .pmeInducedForce, .pmeSelfEnergy] else [])
      ++ (if hasExceptions then [.computeExceptions] else [])
      ++ [.recordLastPositions],
      ?_, ?_, ?_, ?_, ?_⟩
    · simp [hippoExecuteTrace]
    · cases usePME <;> cases includeEnergy <;> cases hasExceptions <;>
        simp [List.mem_append]
    · simp
    · intro hp
      cases includeEnergy <;> cases hasExceptions <;> simp [hp, List.mem_append]
    · intro hp
      cases usePME <;> cases includeEnergy <;> simp [hp, List.mem_append]

/-- Witness for C5: the ordering instantiated for a PME evaluation with
Extrapolated polarization and three DIIS iterations. -/
theorem torqueMapping_runs_last_witness :
    ∃ pre, amoebaExecuteTrace true false PolarizationKind.extrapolated 3
        = pre ++ [ExecStep.mapTorque, ExecStep.recordLastPositions] ∧
      ExecStep.mapTorque ∉ pre ∧
      accumulatesTorque ExecStep.recordLastPositions = false ∧
      (PolarizationKind.extrapolated = PolarizationKind.extrapolated →
        ExecStep.addExtrapolatedGradient ∈ pre) ∧
      ExecStep.electrostatics ∈ pre ∧
      (true = true → ExecStep.pmeFixedForce ∈ pre ∧
        ExecStep.pmeInducedForce ∈ pre) ∧
      (true = false → false = true → ExecStep.gkFinishComputation ∈ pre) :=
  (torqueMapping_runs_last true false false false
    PolarizationKind.extrapolated 3).1


theorem getD_set_self (l : List ℝ) (i : ℕ) (a : ℝ) (h : i < l.length) :
    (l.set i a).getD i 0 = a := by
  rw [List.getD_eq_getElem _ _ (by simpa using h)]
  simp [List.getElem_set]

theorem getD_set_ne (l : List ℝ) (i j : ℕ) (a : ℝ) (h : i ≠ j) :
    (l.set i a).getD j 0 = l.getD j 0 := by
  simp only [List.getD, List.get?_eq_getElem?, List.getElem?_set_ne h]

theorem zetaFoldAux_succ (ndata : ℕ) (l : List ℝ) (m : ℕ) :
    zetaFoldAux ndata l (m+1)
      = (zetaFoldAux ndata l m).set m
          ((zetaFoldAux ndata l m).getD m 0 * zetaFactor ndata m ^ 2) := by
  unfold zetaFoldAux
  rw [List.range_succ, List.foldl_append]
  rfl

theorem zetaFoldAux_length (ndata : ℕ) (l : List ℝ) (m : ℕ) :
    (zetaFoldAux ndata l m).length = l.length := by
  induction m with
  | zero => rfl
  | succ k ih => rw [zetaFoldAux_succ, List.length_set, ih]

theorem zetaFoldAux_getD (ndata : ℕ) (l : List ℝ) :
    ∀ (m : ℕ), m ≤ l.length → ∀ j : ℕ,
      (zetaFoldAux ndata l m).getD j 0
        = if j < m then l.getD j 0 * zetaFactor ndata j ^ 2 else l.getD j 0 := by
  intro m
  induction m with
  | zero => intro _ j; simp [zetaFoldAux]
  | succ k ih =>
      intro hk j
      rw [zetaFoldAux_succ]
      rcases eq_or_ne j k with rfl | hjk
      · rw [getD_set_self _ _ _ (by rw [zetaFoldAux_length]; omega)]
        rw [ih (by omega) j]
        simp
      · rw [getD_set_ne _ _ _ _ (Ne.symm hjk)]
        rw [ih (by omega) j]
        rcases Nat.lt_trichotomy j k with h | h | h
        · rw [if_pos h, if_pos (by omega)]
        · exact absurd h hjk
        · rw [if_neg (by omega), if_neg (by omega)]

theorem fixFoldAux_succ (l1 : List ℝ) (m : ℕ) :
    fixFoldAux l1 (m+1)
      = (if (fixFoldAux l1 m).getD (m+1) 0 < 1e-7
         then (fixFoldAux l1 m).set (m+1)
            (0.9 * ((fixFoldAux l1 m).getD m 0 + (fixFoldAux l1 m).getD (m+2) 0))
         else fixFoldAux l1 m) := by
  unfold fixFoldAux
  rw [List.range_succ, List.foldl_append]
  rfl

theorem fixFoldAux_length (l1 : List ℝ) (m : ℕ) :
    (fixFoldAux l1 m).length = l1.length := by
  induction m with
  | zero => rfl
  | succ k ih =>
      rw [fixFoldAux_succ]
      split
      · rw [List.length_set]; exact ih
      · exact ih

theorem fixHead_length (l : List ℝ) : (fixHead l).length = l.length := by
  unfold fixHead
  split
  · rw [List.length_set]
  · rfl

theorem fixModuli_eq_foldPhases (l : List ℝ) :
    fixModuli l
      = (if (fixFoldAux (fixHead l) (l.length - 2)).getD (l.length - 1) 0 < 1e-7
         then (fixFoldAux (fixHead l) (l.length - 2)).set (l.length - 1)
            (0.9 * (fixFoldAux (fixHead l) (l.length - 2)).getD (l.length - 2) 0)
         else fixFoldAux (fixHead l) (l.length - 2)) := by
  rfl

theorem fixFoldAux_invariant (l : List ℝ) (hlen : 2 ≤ l.length) :
    ∀ (m : ℕ), m ≤ l.length - 2 → ∀ j : ℕ,
      (j ≤ m → (fixFoldAux (fixHead l) m).getD j 0
        = fixedModulusSpec l.length (fun j0 => l.getD j0 0) j) ∧
      (m < j → (fixFoldAux (fixHead l) m).getD j 0 = l.getD j 0) := by
  intro m
  induction m with
  | zero =>
      intro _ j
      constructor
      · intro hj
        interval_cases j
        show (fixHead l).getD 0 0 = _
        unfold fixHead fixedModulusSpec
        split
        · rw [getD_set_self _ _ _ (by omega)]
        · rfl
      · intro hj
        show (fixHead l).getD j 0 = _
        unfold fixHead
        split
        · rw [getD_set_ne _ _ _ _ (by omega)]
        · rfl
  | succ k ih =>
      intro hk j
      have ihk := ih (by omega)
      have hcur : (fixFoldAux (fixHead l) k).getD (k+1) 0 = l.getD (k+1) 0 :=
        (ihk (k+1)).2 (by omega)
      have hprev : (fixFoldAux (fixHead l) k).getD k 0
          = fixedModulusSpec l.length (fun j0 => l.getD j0 0) k :=
        (ihk k).1 (by omega)
      have hnext : (fixFoldAux (fixHead l) k).getD (k+2) 0 = l.getD (k+2) 0 :=
        (ihk (k+2)).2 (by omega)
      have hne : ¬ (k + 1 = l.length - 1) := by omega
      constructor
      · intro hj
        rcases Nat.lt_or_ge j (k+1) with hlt | hge
        · rw [fixFoldAux_succ]
          split
          · rw [getD_set_ne _ _ _ _ (by omega)]
            exact (ihk j).1 (by omega)
          · exact (ihk j).1 (by omega)
        · have hj1 : j = k + 1 := by omega
          subst hj1
          rw [fixFoldAux_succ]
          rw [hcur]
          show _ = fixedModulusSpec l.length (fun j0 => l.getD j0 0) (k+1)
          unfold fixedModulusSpec
          rw [if_neg hne]
          split
          · rw [getD_set_self _ _ _
              (by rw [fixFoldAux_length, fixHead_length]; omega)]
            rw [hprev, hnext]
          · rw [hcur]
      · intro hj
        rw [fixFoldAux_succ]
        split
        · rw [getD_set_ne _ _ _ _ (by omega)]
          exact (ihk j).2 (by omega)
        · exact (ihk j).2 (by omega)

theorem fixedModulusSpec_last (l : List ℝ) (hlen : 2 ≤ l.length) :
    fixedModulusSpec l.length (fun j0 => l.getD j0 0) (l.length - 1)
      = (if l.getD (l.length - 1) 0 < 1e-7
         then 0.9 * fixedModulusSpec l.length (fun j0 => l.getD j0 0) (l.length - 2)
         else l.getD (l.length - 1) 0) := by
  obtain ⟨i0, hi0⟩ : ∃ i0, l.length - 1 = i0 + 1 := ⟨l.length - 2, by omega⟩
  rw [hi0]
  simp only [fixedModulusSpec]
  rw [if_pos (by omega)]
  rw [show i0 = l.length - 2 from by omega, show l.length - 2 + 1 = l.length - 1 from by omega]

theorem fixModuli_getD (l : List ℝ) (hlen : 2 ≤ l.length) :
    ∀ j < l.length, (fixModuli l).getD j 0
      = fixedModulusSpec l.length (fun j0 => l.getD j0 0) j := by
  intro j hj
  have hinv := fixFoldAux_invariant l hlen (l.length - 2) (by omega)
  have hlast : (fixFoldAux (fixHead l) (l.length - 2)).getD (l.length - 1) 0
      = l.getD (l.length - 1) 0 := (hinv (l.length - 1)).2 (by omega)
  have hpen : (fixFoldAux (fixHead l) (l.length - 2)).getD (l.length - 2) 0
      = fixedModulusSpec l.length (fun j0 => l.getD j0 0) (l.length - 2) :=
    (hinv (l.length - 2)).1 (by omega)
  rw [fixModuli_eq_foldPhases]
  rcases Nat.lt_or_ge j (l.length - 1) with hjlt | hjge
  · split
    · rw [getD_set_ne _ _ _ _ (by omega)]
      exact (hinv j).1 (by omega)
    · exact (hinv j).1 (by omega)
  · have hj1 : j = l.length - 1 := by omega
    subst hj1
    split
    · rename_i hc
      rw [hlast] at hc
      rw [getD_set_self _ _ _
        (by rw [fixFoldAux_length, fixHead_length]; omega)]
      rw [hpen, fixedModulusSpec_last l hlen, if_pos hc]
    · rename_i hc
      rw [hlast] at hc
      rw [hlast, fixedModulusSpec_last l hlen, if_neg hc]

theorem fixModuli_length (l : List ℝ) : (fixModuli l).length = l.length := by
  rw [fixModuli_eq_foldPhases]
  split
  · rw [List.length_set, fixFoldAux_length, fixHead_length]
  · rw [fixFoldAux_length, fixHead_length]

theorem fixedModulusSpec_congr (ndata : ℕ) (h2 : 2 ≤ ndata) (raw raw' : ℕ → ℝ)
    (hagree : ∀ j < ndata, raw j = raw' j) :
    ∀ i < ndata, fixedModulusSpec ndata raw i = fixedModulusSpec ndata raw' i := by
  intro i
  induction i with
  | zero =>
      intro _
      simp only [fixedModulusSpec]
      rw [hagree 0 (by omega), hagree 1 (by omega)]
  | succ k ih =>
      intro hk
      simp only [fixedModulusSpec]
      rw [hagree (k+1) (by omega)]
      by_cases hlastIdx : k + 1 = ndata - 1
      · rw [if_pos hlastIdx, ih (by omega), if_pos hlastIdx]
      · rw [if_neg hlastIdx, ih (by omega), hagree (k+2) (by omega),
            if_neg hlastIdx]

/-- C7: for a grid axis of size `ndata`, after the raw moduli are computed as
the squared DFT magnitudes of the order-5 B-spline, every output modulus
equals the floor-corrected modulus (every entry below `eps = 1e-7` replaced
by `0.9*moduli[1]` at index 0, `0.9*(moduli[i-1]+moduli[i+1])` at an interior
index, `0.9*moduli[ndata-2]` at the last index) multiplied by `zeta^2`, where
`zeta` is 1 at the zero frequency and otherwise `sum2/sum1` of the correction
series truncated at exactly 50 terms on each side. -/
theorem bsplineModuli_floorFix_and_zeta (ndata : ℕ) (h2 : 2 ≤ ndata) :
    ∀ i < ndata, (bsplineModuli ndata).getD i 0
      = fixedModulusSpec ndata (rawModulus ndata) i * zetaFactor ndata i ^ 2 := by
  intro i hi
  have hrawlen : ((List.range ndata).map (rawModulus ndata)).length = ndata := by
    simp
  have hfixlen :
      (fixModuli ((List.range ndata).map (rawModulus ndata))).length = ndata := by
    rw [fixModuli_length, hrawlen]
  unfold bsplineModuli
  show (zetaFoldAux ndata
      (fixModuli ((List.range ndata).map (rawModulus ndata))) ndata).getD i 0 = _
  rw [zetaFoldAux_getD ndata _ ndata (by omega) i, if_pos hi]
  rw [fixModuli_getD _ (by omega) i (by omega)]
  rw [hrawlen]
  rw [fixedModulusSpec_congr ndata h2 _ (rawModulus ndata)
    (fun j hj => getD_map_range (rawModulus ndata) ndata j hj) i hi]

/-- Witness for C7: the characterization instantiated at `ndata = 2`,
index 0. -/
theorem bsplineModuli_floorFix_and_zeta_witness :
    (bsplineModuli 2).getD 0 0
      = fixedModulusSpec 2 (rawModulus 2) 0 * zetaFactor 2 0 ^ 2 :=
  bsplineModuli_floorFix_and_zeta 2 (by norm_num) 0 (by norm_num)

